import Mathlib

/-!
Verification development for the tuple-keyed store backends of
`great_expectations/data_context/store/tuple_store_backend.py`.

The key ↔ filepath codec (`_convert_key_to_filepath`,
`_convert_filepath_to_key`) is embedded at character level: paths and
templates are Lean `String`s, processed on their `List Char` data.  The
Python regular-expression machinery that `_convert_filepath_to_key` builds
from a template is embedded by a small backtracking matcher (`rmatch`)
over the exact pattern shapes the code produces: literal characters, the
`.` wildcard (any character except a newline) coming from unescaped
literal `.` in the template, and the greedy named groups
`(?P<tuple_index_i>.*)` substituted for each `{i}` placeholder.  The
matcher is anchored at the start only (Python `re.match`) and prefers the
longest capture first (greedy `.*` with backtracking), trying shorter
captures on failure.

The filesystem backends are embedded over a state of files and
directories whose paths are lists of path segments (the `/`-separated
components of the POSIX paths the code manipulates); `os.path.dirname` /
`os.path.split` become `List.dropLast`, and `os.path.join` of a base
directory with a relative path appends the relative path's segments.
-/

namespace TupleStoreBackend

instance {ε α : Type} [DecidableEq ε] [DecidableEq α] : DecidableEq (Except ε α) :=
  fun x y =>
    match x, y with
    | .error a, .error b =>
        if h : a = b then isTrue (by rw [h]) else isFalse (fun hc => h (by injection hc))
    | .ok a, .ok b =>
        if h : a = b then isTrue (by rw [h]) else isFalse (fun hc => h (by injection hc))
    | .error _, .ok _ => isFalse (fun hc => Except.noConfusion hc)
    | .ok _, .error _ => isFalse (fun hc => Except.noConfusion hc)

/-! ### Basic string utilities (POSIX, `os.sep = "/"`). -/

/-- Python's `sub in s` membership test: `sub` occurs contiguously in `s`. -/
def containsSub : List Char → List Char → Bool
  | _, [] => true
  | [], _ :: _ => false
  | c :: rest, sub => sub.isPrefixOf (c :: rest) || containsSub rest sub

/-- `sub in s` on strings. -/
def strContains (s sub : String) : Bool := containsSub s.data sub.data

/-- Character-count length of a string (Python `len`). -/
def slen (s : String) : Nat := s.data.length

/-- Python slice `s[n:]` by characters. -/
def sdrop (s : String) (n : Nat) : String := ⟨s.data.drop n⟩

/-- Python slice `s[:n]` by characters. -/
def stake (s : String) (n : Nat) : String := ⟨s.data.take n⟩

/-- Python `s.startswith(p)`. -/
def sStarts (s p : String) : Bool := p.data.isPrefixOf s.data

/-- Python `s.endswith(x)`. -/
def sEnds (s x : String) : Bool := x.data.isSuffixOf s.data

/-- Python `str.split(sep)` for a one-character separator (never returns
the empty list; splitting the empty string yields `[""]`). -/
def splitChar (sep : Char) (l : List Char) : List (List Char) :=
  l.foldr
    (fun c acc =>
      if c = sep then [] :: acc
      else
        match acc with
        | h :: t => (c :: h) :: t
        | [] => [[c]])
    [[]]

/-- `str.split("/")` on strings. -/
def splitSlash (s : String) : List String := (splitChar '/' s.data).map String.mk

/-- Python `"/".join(key)` (line 90 of the source). -/
def joinSlash (key : List String) : String :=
  ⟨List.intercalate ['/'] (key.map String.data)⟩

/-! ### `posixpath.normpath`, translated clause by clause. -/

/-- The `initial_slashes` count of `posixpath.normpath`: `2` when the path
starts with exactly two slashes, `1` when it starts with a slash
otherwise, `0` when relative. -/
def normSlashes (l : List Char) : Nat :=
  if l.take 2 = ['/', '/'] ∧ l.take 3 ≠ ['/', '/', '/'] then 2
  else if l.take 1 = ['/'] then 1
  else 0

/-- One step of `normpath`'s component loop.  The accumulator keeps
`new_comps` reversed (head = most recently appended component). -/
def normFold (ini : Nat) (acc : List (List Char)) (comp : List Char) :
    List (List Char) :=
  if comp = [] ∨ comp = ['.'] then acc
  else if comp ≠ ['.', '.'] ∨ (ini = 0 ∧ acc = []) ∨ acc.head? = some ['.', '.'] then
    comp :: acc
  else acc.tail

/-- `posixpath.normpath` on character lists. -/
def normpathL (p : List Char) : List Char :=
  if p = [] then ['.']
  else
    let ini := normSlashes p
    let comps := splitChar '/' p
    let newComps := (comps.foldl (normFold ini) []).reverse
    let res := List.replicate ini '/' ++ List.intercalate ['/'] newComps
    if res = [] then ['.'] else res

/-- `os.path.normpath` on strings (POSIX host). -/
def normpathStr (s : String) : String := ⟨normpathL s.data⟩

/-- `posixpath.join` of two path fragments. -/
def posixJoin2 (a b : String) : String :=
  if sStarts b "/" then b
  else if a = "" ∨ sEnds a "/" then a ++ b
  else a ++ "/" ++ b

/-- `os.path.join(*segs)` (line 133 of the source applies it to
`filepath_template.split("/")`, which is never empty). -/
def posixJoinSegs : List String → String
  | [] => ""
  | h :: t => t.foldl posixJoin2 h

/-- `str.replace("\\", "\\\\")` (line 134 of the source). -/
def bsEscape (s : String) : String :=
  ⟨s.data.foldr (fun c acc => if c = '\\' then '\\' :: '\\' :: acc else c :: acc) []⟩

/-! ### `str.format` with positional `{i}` placeholders.

`filepath_template.format(*list(key))` (line 88).  The embedding is
faithful for templates whose braces occur only in well-formed positional
placeholders `{digits}` (the only shape the surrounding code contemplates,
per the class docstring); an out-of-range index is Python's `IndexError`,
modelled as `none`.  Recursion is by fuel, structurally decreasing, so the
function evaluates by kernel reduction; the fuel never runs out when it
exceeds the character count. -/

/-- `int(ds)` for a list of decimal digits. -/
def natOfDigits (l : List Char) : Nat :=
  l.foldl (fun a c => 10 * a + (c.toNat - 48)) 0

def pyFormatF (key : List String) : Nat → List Char → Option (List Char)
  | 0, _ => none
  | _ + 1, [] => some []
  | f + 1, c :: rest =>
      if c = '{' then
        let ds := rest.takeWhile Char.isDigit
        if ds = [] then none
        else
          match rest.drop ds.length with
          | [] => none
          | c2 :: rest2 =>
              if c2 = '}' then
                match key.get? (natOfDigits ds) with
                | some v => (pyFormatF key f rest2).map (fun r => v.data ++ r)
                | none => none
              else none
      else if c = '}' then none
      else (pyFormatF key f rest).map (fun r => c :: r)

/-- `template.format(*list(key))`. -/
def pyFormat (t : String) (key : List String) : Option (List Char) :=
  pyFormatF key (t.data.length + 1) t.data

/-! ### The regex built from a template and its matcher.

`_convert_filepath_to_key` (lines 138-152) turns the template into a
regex: each `{i}` becomes the greedy named group `(?P<tuple_index_j>.*)`
and the other characters are spliced in verbatim, so a literal `.` acts as
the regex wildcard (any character except `\n`) and other characters match
themselves.  The embedding covers exactly the pattern atoms such templates
generate; templates containing further live regex metacharacters are
outside the scope of the theorems below.  A group remembers the digit
string of its placeholder (`indexed_string_substitutions` keeps `{i}` per
occurrence and `tuple_index = int(...)` is taken at assembly time). -/

inductive RItem where
  | lit : Char → RItem
  | dot : RItem
  | group : List Char → RItem
  deriving DecidableEq

/-- Template-to-pattern compiler, mirroring the scan of `re.findall
(r"{\d+}", ...)` / `re.sub`: a well-formed `{digits}` becomes a group, an
unescaped `.` the wildcard, anything else a literal. -/
def compileTF : Nat → List Char → List RItem
  | 0, _ => []
  | _ + 1, [] => []
  | f + 1, c :: rest =>
      if c = '{' then
        let ds := rest.takeWhile Char.isDigit
        if ds = [] then .lit '{' :: compileTF f rest
        else
          match rest.drop ds.length with
          | [] => .lit '{' :: compileTF f rest
          | c2 :: rest2 =>
              if c2 = '}' then .group ds :: compileTF f rest2
              else .lit '{' :: compileTF f rest
      else (if c = '.' then RItem.dot else .lit c) :: compileTF f rest

def compileT (t : String) : List RItem := compileTF (t.data.length + 1) t.data

/-- The placeholder occurrences of a template, as digit strings in order:
`re.findall(r"{\d+}", template)`. -/
def phOcc (t : String) : List (List Char) :=
  (compileT t).filterMap (fun it =>
    match it with
    | .group ds => some ds
    | _ => none)

/-- `self.key_length = len(set(re.findall(r"{\d+}", filepath_template)))`
(line 58). -/
def keyLengthOf (t : String) : Nat := (phOcc t).dedup.length

/-- Longest prefix free of `\n` — the furthest a greedy `.*` can reach. -/
def nonNlLen (s : List Char) : Nat := (s.takeWhile (fun c => c ≠ '\n')).length

/-- `n, n-1, ..., 0`: the candidate capture lengths of a greedy `.*`,
longest first. -/
def countdown : Nat → List Nat
  | 0 => [0]
  | n + 1 => (n + 1) :: countdown n

/-- Backtracking matcher for the patterns `_convert_filepath_to_key`
builds, anchored at the start and with no end anchor (`re.match` without
`$`): a match may leave trailing characters unconsumed.  On success it
returns the captures in occurrence order, each tagged with its
placeholder's digit string. -/
def rmatch : List RItem → List Char → Option (List (List Char × List Char))
  | [], _ => some []
  | .lit _ :: _, [] => none
  | .lit c :: ps, x :: xs => if x = c then rmatch ps xs else none
  | .dot :: _, [] => none
  | .dot :: ps, x :: xs => if x = '\n' then none else rmatch ps xs
  | .group ds :: ps, s =>
      (countdown (nonNlLen s)).findSome? (fun n =>
        (rmatch ps (s.drop n)).map (fun caps => (ds, s.take n) :: caps))

/-! ### Errors and configuration. -/

/-- The error outcomes of the embedded operations.  `invalidKey`
corresponds to the `ValueError`s of key validation, `arityMismatch` to the
spec's `ArityMismatchError`, `indexError` to Python `IndexError` (a
`format` or `new_key[...]` index out of range), the mismatches to the
`ValueError`s of lines 111 and 122, `valueError` to the constructor's
errors, and `fsError` to OS-level exceptions. -/
inductive Err where
  | invalidKey : String → Err
  | arityMismatch : Err
  | indexError : Err
  | prefixMismatch : Err
  | suffixMismatch : Err
  | valueError : String → Err
  | fsError : String → Err
  deriving DecidableEq

/-- The per-instance configuration of `TupleStoreBackend`: `tmplOpt` is
`filepath_template`, `pfxOpt` is `filepath_prefix`, `sufOpt` is
`filepath_suffix`, `forb` is `forbidden_substrings` and `pss` is
`platform_specific_separator` (the names dodge lexical restrictions of
this development's toolchain).  `Option.none` is Python `None`; note the
code tests these fields sometimes by `is not None` and sometimes by
truthiness (`some ""` is falsy), which the definitions below reproduce. -/
structure Config where
  tmplOpt : Option String
  pfxOpt : Option String
  sufOpt : Option String
  forb : List String
  pss : Bool
  deriving DecidableEq

/-- Modelled from the spec: `StoreBackend._validate_key` — the base-class
half of key validation (the base class `store_backend.py` is not among the
source files).  Per spec §4.1, validation requires every component
non-empty (`InvalidKeyError`) and, when a template fixes the arity, the
key's length to equal the template's distinct-placeholder count
(`ArityMismatchError`); the derived class sets `_fixed_length_key = True`
exactly when a template is configured (line 61). -/
def baseValidateKey (cfg : Config) (key : List String) : Except Err Unit :=
  if key.any (fun k => k = "") then .error (.invalidKey "empty component")
  else
    match cfg.tmplOpt with
    | some t => if key.length = keyLengthOf t then .ok () else .error .arityMismatch
    | none => .ok ()

/-- `TupleStoreBackend._validate_key` (lines 63-73): base validation, then
reject any component containing a forbidden substring. -/
def validateKey (cfg : Config) (key : List String) : Except Err Unit := do
  baseValidateKey cfg key
  if key.any (fun ke => cfg.forb.any (fun sub => strContains ke sub)) then
    throw (.invalidKey "forbidden substring")
  else
    pure ()

/-! ### `_convert_key_to_filepath` (lines 83-99). -/

def convertKeyToFilepath (cfg : Config) (key : List String) : Except Err String := do
  validateKey cfg key
  let s ←
    match cfg.tmplOpt with
    | some t =>
        if t ≠ "" then
          match pyFormat t key with
          | some r => pure (String.mk r)
          | none => throw Err.indexError
        else pure (joinSlash key)
    | none => pure (joinSlash key)
  let s :=
    match cfg.pfxOpt with
    | some p => if p ≠ "" then p ++ "/" ++ s else s
    | none => s
  let s :=
    match cfg.sufOpt with
    | some x => if x ≠ "" then s ++ x else s
    | none => s
  pure (if cfg.pss then normpathStr s else s)

/-! ### `_convert_filepath_to_key` (lines 101-168). -/

/-- One assignment `new_key[tuple_index] = key_element` of the assembly
loop (lines 156-161); an index at or beyond `key_length` is Python's
`IndexError`. -/
def setSlot (n : Nat) (arr : List (Option (List Char))) (p : List Char × List Char) :
    Except Err (List (Option (List Char))) :=
  let i := natOfDigits p.1
  if i < n then .ok (arr.set i (some p.2)) else .error .indexError

/-- The assembly loop: start from `[None] * key_length` and write each
capture into its placeholder's slot, in template-occurrence order. -/
def assembleKey (n : Nat) (caps : List (List Char × List Char)) :
    Except Err (List (Option (List Char))) :=
  caps.foldlM (setSlot n) (List.replicate n none)

/-- The no-template branch (lines 164-166): normalize (unconditionally)
and split on `os.sep`. -/
def noTmplKey (fp : String) : Option (List (Option String)) :=
  some ((splitSlash (normpathStr fp)).map some)

def convertFilepathToKey (cfg : Config) (fp0 : String) :
    Except Err (Option (List (Option String))) := do
  let fp1 := if cfg.pss then normpathStr fp0 else fp0
  let fp2 ←
    match cfg.pfxOpt with
    | some p =>
        if p ≠ "" then
          if ¬ sStarts fp1 p ∧ slen p + 1 ≤ slen fp1 then throw Err.prefixMismatch
          else pure (sdrop fp1 (slen p + 1))
        else pure fp1
    | none => pure fp1
  let fp3 ←
    match cfg.sufOpt with
    | some x =>
        if x ≠ "" then
          if ¬ sEnds fp2 x then throw Err.suffixMismatch
          else pure (stake fp2 (slen fp2 - slen x))
        else pure fp2
    | none => pure fp2
  match cfg.tmplOpt with
  | some t =>
      if t ≠ "" then
        let t2 := if cfg.pss then bsEscape (posixJoinSegs (splitSlash t)) else t
        match rmatch (compileT t2) fp3.data with
        | none => pure none
        | some caps => do
            let arr ← assembleKey (keyLengthOf t) caps
            pure (some (arr.map (Option.map String.mk)))
      else pure (noTmplKey fp3)
  | none => pure (noTmplKey fp3)

/-! ### `TupleStoreBackend.__init__` (lines 24-61).

The reversibility self-check draws a random key; the generator is passed
in as the `randomKey` argument (randomness as an oracle parameter). -/

def tupleStoreInit (filepath_template filepath_pfx filepath_suffix : Option String)
    (forbidden_substrings : Option (List String)) (pss : Bool)
    (randomKey : List String) : Except Err Config := do
  let forb := forbidden_substrings.getD ["/", "\\"]
  if filepath_template.isSome ∧ filepath_suffix.isSome then
    throw (.valueError "filepath_suffix may only be used when filepath_template is None")
  else
    match filepath_pfx with
    | some p =>
        if p ≠ "" ∧ forb.any (fun sub => sub = String.mk [p.data.getLastD ' ']) then
          throw (.valueError "filepath_pfx may not end with a forbidden substring")
        else pure ()
    | none => pure ()
  let cfg : Config :=
    { tmplOpt := filepath_template, pfxOpt := filepath_pfx,
      sufOpt := filepath_suffix, forb := forb, pss := pss }
  match filepath_template with
  | some _ =>
      match convertKeyToFilepath cfg randomKey with
      | .error e => throw e
      | .ok fp =>
          match convertFilepathToKey cfg fp with
          | .error e => throw e
          | .ok k2 =>
              if k2 = some (randomKey.map some) then pure cfg
              else throw (.valueError "filepath template is not reversible")
  | none => pure cfg

/-! ### `TupleFilesystemStoreBackend` (lines 188-341).

The filesystem state is a list of files (absolute path, as segments,
paired with content) and a list of directories (absolute paths as
segments).  Lookup takes the first matching file entry. -/

/-- An absolute POSIX path, as its `/`-separated segments. -/
abbrev FPath := List String

structure FS where
  files : List (FPath × String)
  dirs : List FPath
  deriving DecidableEq

/-- First file entry at a path (read its content). -/
def lookupFile (st : FS) (p : FPath) : Option String :=
  (st.files.find? (fun kv => kv.1 = p)).map (fun kv => kv.2)

/-- `os.path.isfile`. -/
def isFile (st : FS) (p : FPath) : Bool := st.files.any (fun kv => kv.1 = p)

/-- `os.path.exists` (true for files and directories). -/
def pathExists (st : FS) (p : FPath) : Bool :=
  isFile st p || st.dirs.any (fun d => d = p)

/-- Whether directory `p` has an entry (`os.listdir(p)` non-empty): a file
directly inside it or an immediate subdirectory. -/
def hasChild (st : FS) (p : FPath) : Bool :=
  st.files.any (fun kv => kv.1.dropLast = p && kv.1 ≠ p) ||
    st.dirs.any (fun d => d.dropLast = p && d ≠ p)

/-- All non-empty ancestor paths of `p`, `p` included. -/
def ancestorsOf (p : FPath) : List FPath :=
  (List.range p.length).map (fun i => p.take (i + 1))

/-- `os.makedirs(p, exist_ok=True)`: create `p` and any missing ancestor. -/
def mkdirs (st : FS) (p : FPath) : FS :=
  { st with dirs := st.dirs ++ (ancestorsOf p).filter (fun q => ¬ st.dirs.contains q) }

/-- `os.remove`: delete the file, `FileNotFoundError` if absent,
`IsADirectoryError` if the path is a directory but not a file. -/
def osRemove (st : FS) (p : FPath) : Except Err FS :=
  if isFile st p then .ok { st with files := st.files.filter (fun kv => kv.1 ≠ p) }
  else .error (.fsError "FileNotFoundError or IsADirectoryError")

/-- `os.rmdir` as invoked by `rrmdir` (guarded: the directory exists and
is empty). -/
def rmdir (st : FS) (p : FPath) : FS :=
  { st with dirs := st.dirs.filter (fun d => d ≠ p) }

/-- `shutil.move(source_path, dest_path)` for a regular file: an
`os.rename`, removing the source entry and writing its content at the
destination (silently overwriting a destination file). -/
def shutilMove (st : FS) (sp dp : FPath) (v : String) : FS :=
  { st with files := (dp, v) :: st.files.filter (fun kv => kv.1 ≠ sp) }

/-- `TupleFilesystemStoreBackend.rrmdir(mroot, curpath)` (lines 300-312):
walk upward from `curpath`, removing each directory while it exists, is
empty and differs from `mroot`; a missing or non-directory `curpath`
raises inside `os.listdir`, which the method swallows and stops.  The
walk is by fuel (one segment is peeled per step, so any fuel above
`curpath.length` is exact). -/
def rrmdirF (mroot : FPath) : Nat → FPath → FS → FS
  | 0, _, st => st
  | fuel + 1, curpath, st =>
      if curpath ∈ st.dirs ∧ hasChild st curpath = false ∧ mroot ≠ curpath then
        rrmdirF mroot fuel curpath.dropLast (rmdir st curpath)
      else st

/-- `os.path.join(full_base_directory, rel)` for the relative path the
codec produced, in the segment representation. -/
def joinBase (base : FPath) (rel : String) : FPath := base ++ splitSlash rel

/-- `TupleFilesystemStoreBackend._move` (lines 256-271): returns
`some dest_key` on success and `none` for Python's `False`. -/
def fsMove (cfg : Config) (base : FPath) (st : FS) (sourceKey destKey : List String) :
    Except Err (FS × Option (List String)) := do
  let srel ← convertKeyToFilepath cfg sourceKey
  let drel ← convertKeyToFilepath cfg destKey
  let sp := joinBase base srel
  let dp := joinBase base drel
  let destDir := dp.dropLast
  if pathExists st sp then
    let st1 := mkdirs st destDir
    match lookupFile st1 sp with
    | some v => pure (shutilMove st1 sp dp v, some destKey)
    | none => throw (.fsError "shutil.move on a non-file source")
  else
    pure (st, none)

/-- `TupleFilesystemStoreBackend.remove_key` (lines 314-327). -/
def fsRemoveKey (cfg : Config) (base : FPath) (st : FS) (key : List String) :
    Except Err (FS × Bool) := do
  let rel ← convertKeyToFilepath cfg key
  let fp := joinBase base rel
  if pathExists st fp then
    let dPath := fp.dropLast
    let st1 ← osRemove st fp
    pure (rrmdirF base (dPath.length + 1) dPath st1, true)
  else
    pure (st, false)

/-- `TupleFilesystemStoreBackend._get` (lines 233-238); a missing file is
`FileNotFoundError` from `open`. -/
def fsGet (cfg : Config) (base : FPath) (st : FS) (key : List String) :
    Except Err String := do
  let rel ← convertKeyToFilepath cfg key
  match lookupFile st (joinBase base rel) with
  | some v => pure v
  | none => throw (.fsError "FileNotFoundError")

/-- `TupleFilesystemStoreBackend._has_key` (lines 338-341). -/
def fsHasKey (cfg : Config) (base : FPath) (st : FS) (key : List String) :
    Except Err Bool := do
  let rel ← convertKeyToFilepath cfg key
  pure (isFile st (joinBase base rel))

/-! ### `TupleS3StoreBackend.remove_key` (lines 476-501).

The bucket state is the list of (object key, body) pairs.  The method
converts the key; when the resulting path string is truthy it lists every
object under the store's `self.prefix` and deletes all of them, returning
`True`; a falsy path returns `False`. -/

structure S3State where
  objects : List (String × String)
  deriving DecidableEq

def s3RemoveKey (cfg : Config) (storePfx : String) (st : S3State) (key : List String) :
    Except Err (S3State × Bool) := do
  let s3Key ← convertKeyToFilepath cfg key
  if s3Key ≠ "" then
    pure (⟨st.objects.filter (fun kv => ¬ sStarts kv.1 storePfx)⟩, true)
  else
    pure (st, false)

/-! ### Reduction lemmas for `Except` programs. -/

@[simp] theorem exc_bind_ok {α β : Type} (a : α) (f : α → Except Err β) :
    (Except.ok a >>= f) = f a := rfl

@[simp] theorem exc_bind_error {α β : Type} (e : Err) (f : α → Except Err β) :
    ((Except.error e : Except Err α) >>= f) = Except.error e := rfl

@[simp] theorem exc_pure {α : Type} (a : α) : (pure a : Except Err α) = Except.ok a := rfl

@[simp] theorem exc_throw {α : Type} (e : Err) : (throw e : Except Err α) = Except.error e := rfl

/-! ### Claim C2: the concrete scenario of spec §8.8. -/

/-- C2: with filepath template `"a/{0}/{1}/b-{1}.txt"` and no
prefix/suffix (default configuration otherwise), encoding the key
`("x","y")` produces `"a/x/y/b-y.txt"`, and decoding `"a/x/y/b-y.txt"`
returns the key `("x","y")`. -/
theorem claim_C2 :
    convertKeyToFilepath ⟨some "a/{0}/{1}/b-{1}.txt", none, none, ["/", "\\"], true⟩
        ["x", "y"] = .ok "a/x/y/b-y.txt" ∧
    convertFilepathToKey ⟨some "a/{0}/{1}/b-{1}.txt", none, none, ["/", "\\"], true⟩
        "a/x/y/b-y.txt" = .ok (some [some "x", some "y"]) :=
  ⟨by decide, by decide⟩

/-! ### Claim C10: template and suffix are mutually exclusive. -/

/-- C10: constructing any `TupleStoreBackend` with both a
`filepath_template` and a `filepath_suffix` set (both non-`None`) always
fails with an error, whatever the other arguments (lines 39-42 raise
before anything else can happen). -/
theorem claim_C10 (t s : String) (pre : Option String) (forb : Option (List String))
    (pss : Bool) (rk : List String) :
    tupleStoreInit (some t) pre (some s) forb pss rk =
      .error (.valueError "filepath_suffix may only be used when filepath_template is None") :=
  rfl

/-! ### Claim C1, counterexample: the round-trip property fails for the
template `"{0}{1}"`.

Both placeholders are distinct, the key `("AA","BB")` has the matching
arity two and its components are non-empty and free of the default
forbidden substrings, yet the greedy regex `(?P<tuple_index_0>.*)
(?P<tuple_index_1>.*)` captures everything in the first group, so
decoding the encoded path returns `("AABB","")`. -/

/-- C1 counterexample: for template `"{0}{1}"` (two distinct placeholders)
and key `("AA","BB")` (correct arity, non-empty components, no forbidden
substrings), decode(encode(key)) is `("AABB","")`, not the original key. -/
theorem claim_C1_counterexample :
    keyLengthOf "{0}{1}" = 2 ∧
    (["AA", "BB"].all fun c =>
      !(c = "") && !(strContains c "/") && !(strContains c "\\")) = true ∧
    convertKeyToFilepath ⟨some "{0}{1}", none, none, ["/", "\\"], true⟩ ["AA", "BB"] =
      .ok "AABB" ∧
    convertFilepathToKey ⟨some "{0}{1}", none, none, ["/", "\\"], true⟩ "AABB" =
      .ok (some [some "AABB", some ""]) ∧
    [some "AABB", some ""] ≠ ["AA", "BB"].map some :=
  ⟨by decide, by decide, by decide, by decide, by decide⟩

/-! ### Claim C8, counterexample: moving a key onto itself. -/

/-- C8 counterexample: for the filesystem backend with the default
configuration, source key `("a",)` holding `"v"` and destination key
`("a",)` (the same key), `_move` succeeds and returns the destination
key, yet `has_key` of the source afterwards is `true`, not `false` as the
claim states for every existing source. -/
theorem claim_C8_counterexample :
    fsMove ⟨none, none, none, ["/", "\\"], true⟩ ["b"]
        ⟨[(["b", "a"], "v")], [["b"]]⟩ ["a"] ["a"] =
      .ok (⟨[(["b", "a"], "v")], [["b"]]⟩, some ["a"]) ∧
    fsHasKey ⟨none, none, none, ["/", "\\"], true⟩ ["b"]
        ⟨[(["b", "a"], "v")], [["b"]]⟩ ["a"] ≠ .ok false :=
  ⟨by decide, by decide⟩

/-! ### Claim C7: the S3 `remove_key` deletes everything under the store
prefix. -/

/-- C7: for the S3 backend, `remove_key(key)` with any key that encodes
to a non-empty path deletes every object whose key starts with the
backend's store prefix — not only the object addressed by the given key —
and returns `True`. -/
theorem claim_C7 (cfg : Config) (storePfx : String) (st : S3State) (key : List String)
    (p : String) (hok : convertKeyToFilepath cfg key = .ok p) (hne : p ≠ "") :
    s3RemoveKey cfg storePfx st key =
      .ok (⟨st.objects.filter (fun kv => ¬ sStarts kv.1 storePfx)⟩, true) := by
  unfold s3RemoveKey
  rw [hok]
  simp [hne]

/-- Witness for C7: a bucket holding objects under and outside the store
prefix `"p/"`; removing the key `("k",)` deletes both objects under
`"p/"` (only `"q/b"` survives) and returns `True`. -/
theorem claim_C7_witness :
    convertKeyToFilepath ⟨none, none, none, ["/", "\\"], false⟩ ["k"] = .ok "k" ∧
    s3RemoveKey ⟨none, none, none, ["/", "\\"], false⟩ "p/"
        ⟨[("p/a", "1"), ("q/b", "2"), ("p/c", "3")]⟩ ["k"] =
      .ok (⟨[("p/a", "1"), ("q/b", "2"), ("p/c", "3")].filter
        (fun kv => ¬ sStarts kv.1 "p/")⟩, true) :=
  ⟨by decide,
    claim_C7 ⟨none, none, none, ["/", "\\"], false⟩ "p/"
      ⟨[("p/a", "1"), ("q/b", "2"), ("p/c", "3")]⟩ ["k"] "k" (by decide) (by decide)⟩

/-! ### Claim C3: the asymmetric prefix-mismatch policy of decode. -/

/-- Strings shorter than `n` are emptied by the `[n:]` slice. -/
theorem sdrop_of_short (s : String) (n : Nat) (h : slen s ≤ n) : sdrop s n = "" := by
  have : s.data.drop n = [] := List.drop_eq_nil_of_le h
  simp [sdrop, this]

/-- C3: for a backend with a (non-empty) filepath prefix configured — and
no suffix or template, with the cloud backends' `platform_specific_separator
= False` so the input path is taken as given — `_convert_filepath_to_key`
raises the prefix-mismatch `ValueError` for every path that does not start
with the prefix and has length at least `len(prefix) + 1`, while a
non-matching path shorter than that is tolerated: no error is raised, the
first `len(prefix) + 1` characters are stripped (leaving the empty string,
which the no-template branch normalizes to `"."`). -/
theorem claim_C3 (p fp : String) (hp : p ≠ "") (hns : sStarts fp p = false) :
    (slen p + 1 ≤ slen fp →
      convertFilepathToKey ⟨none, some p, none, ["/", "\\"], false⟩ fp =
        .error .prefixMismatch) ∧
    (slen fp < slen p + 1 →
      convertFilepathToKey ⟨none, some p, none, ["/", "\\"], false⟩ fp =
        .ok (some [some "."])) := by
  constructor
  · intro hlen
    unfold convertFilepathToKey
    simp [hp, hns, hlen]
  · intro hlen
    have hnle : ¬ slen p + 1 ≤ slen fp := by omega
    have hd : sdrop fp (slen p + 1) = "" := sdrop_of_short fp _ (by omega)
    unfold convertFilepathToKey
    simp [hp, hns, hnle, hd]
    decide

/-- Witness for C3: prefix `"ab"`, path `"xyz"` (length 3 ≥ 3, not
starting with the prefix) is rejected, while path `"xy"` (length 2 < 3)
is tolerated and decodes to `(".",)`. -/
theorem claim_C3_witness :
    (convertFilepathToKey ⟨none, some "ab", none, ["/", "\\"], false⟩ "xyz" =
      .error .prefixMismatch) ∧
    (convertFilepathToKey ⟨none, some "ab", none, ["/", "\\"], false⟩ "xy" =
      .ok (some [some "."])) :=
  ⟨(claim_C3 "ab" "xyz" (by decide) (by decide)).1 (by decide),
    (claim_C3 "ab" "xy" (by decide) (by decide)).2 (by decide)⟩

/-! ### Claim C6: forbidden substrings are always rejected. -/

/-- C6: for every key containing a component with the forbidden substring
`"/"` (under the default forbidden substrings), `_validate_key` — and
hence `_convert_key_to_filepath`, which validates first — raises an
error, whatever the template configuration. -/
theorem claim_C6 (cfg : Config) (key : List String) (comp : String)
    (hforb : cfg.forb = ["/", "\\"]) (hmem : comp ∈ key)
    (hsub : strContains comp "/" = true) :
    (∃ e, validateKey cfg key = .error e) ∧
    ∃ e, convertKeyToFilepath cfg key = .error e := by
  have hval : ∃ e, validateKey cfg key = .error e := by
    unfold validateKey
    cases hb : baseValidateKey cfg key with
    | error e => exact ⟨e, by simp [hb]⟩
    | ok u =>
        have hany : (key.any fun ke => cfg.forb.any fun sub => strContains ke sub) = true :=
          List.any_eq_true.mpr ⟨comp, hmem, by rw [hforb]; simp [hsub]⟩
        exact ⟨.invalidKey "forbidden substring", by simp [hb, hany]⟩
  obtain ⟨e, he⟩ := hval
  refine ⟨⟨e, he⟩, ⟨e, ?_⟩⟩
  unfold convertKeyToFilepath
  simp [he]

/-- Witness for C6: the key `("a/b",)` under the default configuration —
validation and encoding both fail. -/
theorem claim_C6_witness :
    (∃ e, validateKey ⟨none, none, none, ["/", "\\"], true⟩ ["a/b"] = .error e) ∧
    ∃ e, convertKeyToFilepath ⟨none, none, none, ["/", "\\"], true⟩ ["a/b"] = .error e :=
  claim_C6 ⟨none, none, none, ["/", "\\"], true⟩ ["a/b"] "a/b" rfl (by decide) (by decide)

/-! ### Claim C5: arity enforcement (spec-modelled base validation). -/

/-- C5: for every backend configured with a filepath template, encoding a
key whose length differs from the template's distinct-placeholder count
fails with a key-validation error (`ArityMismatchError` or an
`InvalidKeyError`), never succeeding and never failing with an unrelated
error.  The base-class half of validation is `baseValidateKey`, modelled
from the spec (see its docstring). -/
theorem claim_C5 (cfg : Config) (t : String) (key : List String)
    (ht : cfg.tmplOpt = some t) (hlen : key.length ≠ keyLengthOf t) :
    ∃ e, convertKeyToFilepath cfg key = .error e ∧
      (e = .arityMismatch ∨ ∃ m, e = .invalidKey m) := by
  have hbase : ∃ e, baseValidateKey cfg key = .error e ∧
      (e = .arityMismatch ∨ ∃ m, e = .invalidKey m) := by
    unfold baseValidateKey
    by_cases hemp : (key.any fun k => k = "") = true
    · exact ⟨.invalidKey "empty component", by simp [hemp], Or.inr ⟨_, rfl⟩⟩
    · refine ⟨.arityMismatch, ?_, Or.inl rfl⟩
      rw [ht]
      simp [hemp, hlen]
  obtain ⟨e, hbe, hclass⟩ := hbase
  have hv : validateKey cfg key = .error e := by unfold validateKey; simp [hbe]
  exact ⟨e, by unfold convertKeyToFilepath; simp [hv], hclass⟩

/-- Witness for C5: template `"{0}"` (one distinct placeholder) with the
two-component key `("a","b")` — encoding fails with the arity error. -/
theorem claim_C5_witness :
    ∃ e, convertKeyToFilepath ⟨some "{0}", none, none, ["/", "\\"], true⟩ ["a", "b"] =
        .error e ∧ (e = .arityMismatch ∨ ∃ m, e = .invalidKey m) :=
  claim_C5 ⟨some "{0}", none, none, ["/", "\\"], true⟩ "{0}" ["a", "b"] rfl (by decide)

/-! ### List indexing helpers (own proofs, to stay version-stable). -/

theorem getD_set_self {α : Type} :
    ∀ (l : List α) (i : Nat) (v d : α), i < l.length → (l.set i v).getD i d = v := by
  intro l
  induction l with
  | nil => intro i v d h; exact absurd h (by simp)
  | cons a t ih =>
      intro i v d h
      cases i with
      | zero => rfl
      | succ i => exact ih i v d (by simpa using h)

theorem getD_set_other {α : Type} :
    ∀ (l : List α) (i j : Nat) (v d : α), i ≠ j → (l.set i v).getD j d = l.getD j d := by
  intro l
  induction l with
  | nil => intro i j v d _; cases i <;> rfl
  | cons a t ih =>
      intro i j v d hne
      cases i with
      | zero => cases j with
          | zero => exact absurd rfl hne
          | succ j => rfl
      | succ i => cases j with
          | zero => rfl
          | succ j => exact ih i j v d (fun h => hne (by rw [h]))

theorem getD_replicate_none {α : Type} :
    ∀ (n j : Nat), (List.replicate n (none : Option α)).getD j none = none := by
  intro n
  induction n with
  | zero => intro j; cases j <;> rfl
  | succ n ih => intro j; cases j with
      | zero => rfl
      | succ j => exact ih j

theorem getD_map_of_lt {α β : Type} (f : α → β) :
    ∀ (l : List α) (j : Nat) (d : α) (d' : β), j < l.length →
      (l.map f).getD j d' = f (l.getD j d) := by
  intro l
  induction l with
  | nil => intro j d d' h; exact absurd h (by simp)
  | cons a t ih =>
      intro j d d' h
      cases j with
      | zero => rfl
      | succ j => exact ih j d d' (by simpa using h)

theorem get?_eq_some_getD {α : Type} :
    ∀ (l : List α) (i : Nat) (d : α), i < l.length → l.get? i = some (l.getD i d) := by
  intro l
  induction l with
  | nil => intro i d h; exact absurd h (by simp)
  | cons a t ih =>
      intro i d h
      cases i with
      | zero => rfl
      | succ i => exact ih i d (by simpa using h)

/-! ### Claim C4: the assembly loop is last-writer-wins. -/

/-- The pure content of the assembly loop (`assembleKey` minus its bounds
check): write each capture into its placeholder's slot, left to right. -/
def writeCaps (caps : List (List Char × List Char)) (arr : List (Option (List Char))) :
    List (Option (List Char)) :=
  caps.foldl (fun a q => a.set (natOfDigits q.1) (some q.2)) arr

theorem writeCaps_length (caps : List (List Char × List Char)) :
    ∀ arr, (writeCaps caps arr).length = arr.length := by
  induction caps with
  | nil => intro arr; rfl
  | cons q caps ih =>
      intro arr
      show (writeCaps caps (arr.set (natOfDigits q.1) (some q.2))).length = arr.length
      rw [ih, List.length_set]

theorem assembleKey_ok (n : Nat) :
    ∀ (caps : List (List Char × List Char)) (arr : List (Option (List Char))),
      (∀ q ∈ caps, natOfDigits q.1 < n) →
      caps.foldlM (setSlot n) arr = .ok (writeCaps caps arr) := by
  intro caps
  induction caps with
  | nil => intro arr _; rfl
  | cons q caps ih =>
      intro arr hin
      have hq : natOfDigits q.1 < n := hin q (by simp)
      have : setSlot n arr q = .ok (arr.set (natOfDigits q.1) (some q.2)) := by
        unfold setSlot
        simp [hq]
      rw [List.foldlM_cons, this, exc_bind_ok]
      exact ih _ (fun r hr => hin r (by simp [hr]))

/-- Each filled slot of the assembly result holds the capture of the last
template occurrence writing to it. -/
theorem writeCaps_getD (caps : List (List Char × List Char)) :
    ∀ (arr : List (Option (List Char))) (j : Nat), j < arr.length →
      (writeCaps caps arr).getD j none =
        (((caps.filter fun q => natOfDigits q.1 = j).getLast?).map
          (fun q => (some q.2 : Option (List Char)))).getD (arr.getD j none) := by
  induction caps with
  | nil => intro arr j _; simp [writeCaps]
  | cons q caps ih =>
      intro arr j hj
      have hstep : writeCaps (q :: caps) arr =
          writeCaps caps (arr.set (natOfDigits q.1) (some q.2)) := rfl
      rw [hstep]
      have hlen : j < (arr.set (natOfDigits q.1) (some q.2)).length := by
        rw [List.length_set]; exact hj
      rw [ih _ j hlen]
      by_cases hij : natOfDigits q.1 = j
      · have hfc : (q :: caps).filter (fun r => natOfDigits r.1 = j) =
            q :: caps.filter (fun r => natOfDigits r.1 = j) := by
          simp [List.filter_cons, hij]
        rw [hfc, hij, getD_set_self arr j _ none hj]
        cases hlast : caps.filter (fun r => natOfDigits r.1 = j) with
        | nil => simp
        | cons h t =>
            rw [List.getLast?_cons_cons,
              List.getLast?_eq_getLast (h :: t) (by simp)]
            simp
      · have hfc : (q :: caps).filter (fun r => natOfDigits r.1 = j) =
            caps.filter (fun r => natOfDigits r.1 = j) := by
          simp [List.filter_cons, hij]
        rw [hfc, getD_set_other arr _ j _ none hij]

/-- C4: in decode with a template, each result slot holds the captured
value of the **last** occurrence of its placeholder in the template: the
captures are written into the result array in template-occurrence order,
so a later occurrence's capture overwrites an earlier one for the same
index.  Stated for a backend with `platform_specific_separator = False`
and no affixes; `caps` is the capture list of the compiled template's
match, in occurrence order, as produced inside `_convert_filepath_to_key`. -/
theorem claim_C4 (t fp : String) (caps : List (List Char × List Char)) (j : Nat)
    (ht : t ≠ "")
    (hm : rmatch (compileT t) fp.data = some caps)
    (hin : ∀ q ∈ caps, natOfDigits q.1 < keyLengthOf t)
    (hj : j < keyLengthOf t) :
    ∃ k, convertFilepathToKey ⟨some t, none, none, ["/", "\\"], false⟩ fp =
        .ok (some k) ∧
      k.getD j none =
        ((caps.filter fun q => natOfDigits q.1 = j).getLast?).map
          (fun q => String.mk q.2) := by
  have hasm : assembleKey (keyLengthOf t) caps =
      .ok (writeCaps caps (List.replicate (keyLengthOf t) none)) :=
    assembleKey_ok (keyLengthOf t) caps _ hin
  refine ⟨(writeCaps caps (List.replicate (keyLengthOf t) none)).map (Option.map String.mk),
    ?_, ?_⟩
  · unfold convertFilepathToKey
    simp [ht, hm, assembleKey] at hasm ⊢
    rw [hasm]
    rfl
  · have hlenr : j < (writeCaps caps (List.replicate (keyLengthOf t) none)).length := by
      rw [writeCaps_length, List.length_replicate]; exact hj
    rw [getD_map_of_lt (Option.map String.mk) _ j none none hlenr]
    rw [writeCaps_getD caps _ j (by rw [List.length_replicate]; exact hj)]
    rw [getD_replicate_none]
    cases hlast : (caps.filter fun q => natOfDigits q.1 = j).getLast? with
    | none => simp
    | some q => simp

/-- Witness for C4: template `"a/{0}/{1}/b-{1}.txt"` (index 1 occurs
twice) against path `"a/x/y/b-z.txt"`; the two occurrences of `{1}`
capture `"y"` and then `"z"`, and slot 1 holds `"z"`, the capture of the
last occurrence. -/
theorem claim_C4_witness :
    ∃ k, convertFilepathToKey
        ⟨some "a/{0}/{1}/b-{1}.txt", none, none, ["/", "\\"], false⟩ "a/x/y/b-z.txt" =
        .ok (some k) ∧
      k.getD 1 none =
        (([(['0'], ['x']), (['1'], ['y']), (['1'], ['z'])].filter
            fun q => natOfDigits q.1 = 1).getLast?).map (fun q => String.mk q.2) :=
  claim_C4 "a/{0}/{1}/b-{1}.txt" "a/x/y/b-z.txt"
    [(['0'], ['x']), (['1'], ['y']), (['1'], ['z'])] 1
    (by decide) (by decide) (by decide) (by decide)

/-! ### Claim C8 (amended): move semantics for distinct source and
destination paths. -/

theorem find?_pred {α : Type} (q : α → Bool) :
    ∀ (l : List α) (a : α), l.find? q = some a → q a = true ∧ a ∈ l := by
  intro l
  induction l with
  | nil => intro a h; cases h
  | cons x t ih =>
      intro a h
      by_cases hx : q x = true
      · rw [List.find?_cons_of_pos _ hx] at h
        cases h
        exact ⟨hx, by simp⟩
      · rw [List.find?_cons_of_neg _ (by simpa using hx)] at h
        rcases ih a h with ⟨h1, h2⟩
        exact ⟨h1, by simp [h2]⟩

theorem isFile_of_lookup (st : FS) (p : FPath) (v : String)
    (h : lookupFile st p = some v) : isFile st p = true := by
  unfold lookupFile at h
  rcases Option.map_eq_some'.mp h with ⟨kv, hfind, _⟩
  rcases find?_pred _ _ _ hfind with ⟨hpred, hmem⟩
  exact List.any_eq_true.mpr ⟨kv, hmem, hpred⟩

theorem any_filter_ne_false (l : List (FPath × String)) (sp : FPath) :
    ((l.filter fun kv => kv.1 ≠ sp).any fun kv => kv.1 = sp) = false := by
  rw [Bool.eq_false_iff]
  intro hcontra
  rcases List.any_eq_true.mp hcontra with ⟨kv, hmem, hkv⟩
  have := (List.mem_filter.mp hmem).2
  simp at this hkv
  exact this hkv

/-- C8 (amended): for the filesystem backend, `move(src, dst)` with a
nonexistent source path returns `False` and leaves the state unchanged;
with a source key whose path holds a file — provided the destination's
encoded path differs from the source's and is not an existing directory —
it returns the destination key, after which `get(dst)` returns the value
previously stored at `src` and `has_key(src)` is `false`. -/
theorem claim_C8_amended (cfg : Config) (base : FPath) (st : FS) (src dst : List String)
    (srel drel : String)
    (hs : convertKeyToFilepath cfg src = .ok srel)
    (hd : convertKeyToFilepath cfg dst = .ok drel)
    (hne : joinBase base srel ≠ joinBase base drel)
    (_hdir : joinBase base drel ∉ st.dirs) :
    (pathExists st (joinBase base srel) = false →
      fsMove cfg base st src dst = .ok (st, none)) ∧
    (∀ v, lookupFile st (joinBase base srel) = some v →
      ∃ st', fsMove cfg base st src dst = .ok (st', some dst) ∧
        fsGet cfg base st' dst = .ok v ∧ fsHasKey cfg base st' src = .ok false) := by
  constructor
  · intro hnex
    unfold fsMove
    rw [hs, hd]
    simp [hnex]
  · intro v hv
    have hex : pathExists st (joinBase base srel) = true := by
      unfold pathExists
      rw [isFile_of_lookup st _ v hv]
      rfl
    refine ⟨shutilMove (mkdirs st (joinBase base drel).dropLast)
      (joinBase base srel) (joinBase base drel) v, ?_, ?_, ?_⟩
    · unfold fsMove
      rw [hs, hd]
      have hv' : lookupFile (mkdirs st (joinBase base drel).dropLast)
          (joinBase base srel) = some v := hv
      simp [hex, hv']
    · unfold fsGet
      rw [hd]
      have : lookupFile (shutilMove (mkdirs st (joinBase base drel).dropLast)
          (joinBase base srel) (joinBase base drel) v) (joinBase base drel) = some v := by
        unfold lookupFile shutilMove
        simp [List.find?_cons_of_pos]
      simp [this]
    · unfold fsHasKey
      rw [hs]
      have : isFile (shutilMove (mkdirs st (joinBase base drel).dropLast)
          (joinBase base srel) (joinBase base drel) v) (joinBase base srel) = false := by
        unfold isFile shutilMove
        have hdp : ¬ (joinBase base drel = joinBase base srel) := fun h => hne h.symm
        simp only [List.any_cons]
        rw [Bool.or_eq_false_iff]
        constructor
        · simpa using hdp
        · exact any_filter_ne_false _ _
      simp [this]

/-- Witness for C8 (amended): base `["b"]`, a file at key `("s",)` moved
to key `("d",)`. -/
theorem claim_C8_amended_witness :
    ∃ st', fsMove ⟨none, none, none, ["/", "\\"], true⟩ ["b"]
        ⟨[(["b", "s"], "v")], [["b"]]⟩ ["s"] ["d"] = .ok (st', some ["d"]) ∧
      fsGet ⟨none, none, none, ["/", "\\"], true⟩ ["b"] st' ["d"] = .ok "v" ∧
      fsHasKey ⟨none, none, none, ["/", "\\"], true⟩ ["b"] st' ["s"] = .ok false :=
  (claim_C8_amended ⟨none, none, none, ["/", "\\"], true⟩ ["b"]
    ⟨[(["b", "s"], "v")], [["b"]]⟩ ["s"] ["d"] "s" "d"
    (by decide) (by decide) (by decide) (by decide)).2 "v" (by decide)

/-! ### Claim C9: delete-then-cleanup of the filesystem backend.

Path helpers, the loop invariant of `rrmdir`, and the `remove_key`
postconditions. -/

theorem dropLast_cons_ne {α : Type} (x : α) (l : List α) (h : l ≠ []) :
    (x :: l).dropLast = x :: l.dropLast := by
  cases l with
  | nil => exact absurd rfl h
  | cons y t => rfl

theorem dropLast_append_ne {α : Type} :
    ∀ (a t : List α), t ≠ [] → (a ++ t).dropLast = a ++ t.dropLast := by
  intro a
  induction a with
  | nil => intro t _; rfl
  | cons x a ih =>
      intro t ht
      have hat : a ++ t ≠ [] := by
        intro hc
        exact ht (List.append_eq_nil.mp hc).2
      show (x :: (a ++ t)).dropLast = x :: (a ++ t.dropLast)
      rw [dropLast_cons_ne x (a ++ t) hat, ih t ht]

theorem prefix_antisym {α : Type} {p q : List α} (h1 : p <+: q) (h2 : q <+: p) :
    p = q := by
  rcases h1 with ⟨t, rfl⟩
  have hlen := h2.length_le
  rw [List.length_append] at hlen
  have ht : t = [] := List.eq_nil_of_length_eq_zero (by omega)
  simp [ht]

theorem prefix_dropLast {α : Type} {p l : List α} (h : p <+: l) (hne : p ≠ l) :
    p <+: l.dropLast := by
  rcases h with ⟨t, rfl⟩
  have ht : t ≠ [] := by
    intro hc
    rw [hc, List.append_nil] at hne
    exact hne rfl
  rw [dropLast_append_ne p t ht]
  exact ⟨t.dropLast, rfl⟩

theorem dropLast_pref_self {α : Type} (l : List α) : l.dropLast <+: l := by
  by_cases h : l = []
  · subst h; simp
  · exact ⟨[l.getLast h], List.dropLast_append_getLast h⟩

/-- The immediate child of `d` along the chain toward `cur`: one more
segment of `cur`. -/
theorem take_succ_spec {α : Type} (cur d : List α) (hpre : d <+: cur)
    (hlt : d.length < cur.length) :
    (cur.take (d.length + 1)).dropLast = d ∧ d ≠ cur.take (d.length + 1) ∧
      cur.take (d.length + 1) <+: cur ∧ (cur.take (d.length + 1)).length = d.length + 1 := by
  have hd : d = cur.take d.length := List.prefix_iff_eq_take.mp hpre
  have hlen : (cur.take (d.length + 1)).length = d.length + 1 := by
    rw [List.length_take]
    omega
  refine ⟨?_, ?_, List.take_prefix _ _, hlen⟩
  · rw [List.dropLast_eq_take _, hlen]
    simp only [Nat.add_sub_cancel]
    rw [List.take_take]
    rw [Nat.min_def]
    simp only [Nat.le_add_right, if_pos]
    exact hd.symm
  · intro hc
    have := congrArg List.length hc
    rw [hlen] at this
    omega

theorem mem_ancestorsOf_iff (d p : FPath) : d ∈ ancestorsOf p ↔ d ≠ [] ∧ d <+: p := by
  unfold ancestorsOf
  rw [List.mem_map]
  constructor
  · rintro ⟨i, hi, rfl⟩
    rw [List.mem_range] at hi
    refine ⟨?_, List.take_prefix _ _⟩
    intro hc
    have hlen0 : (p.take (i + 1)).length = 0 := by rw [hc]; rfl
    rw [List.length_take] at hlen0
    omega
  · rintro ⟨hne, hpre⟩
    have h1 : 0 < d.length := List.length_pos.mpr hne
    have h2 : d.length ≤ p.length := hpre.length_le
    refine ⟨d.length - 1, List.mem_range.mpr (by omega), ?_⟩
    have hd : d = p.take d.length := List.prefix_iff_eq_take.mp hpre
    rw [show d.length - 1 + 1 = d.length from by omega]
    exact hd.symm

theorem hasChild_false_mono (st st' : FS) (p : FPath)
    (hf : st'.files = st.files) (hd : ∀ d ∈ st'.dirs, d ∈ st.dirs)
    (h : hasChild st p = false) : hasChild st' p = false := by
  unfold hasChild at h ⊢
  rw [Bool.or_eq_false_iff] at h ⊢
  rcases h with ⟨h1, h2⟩
  refine ⟨by rw [hf]; exact h1, ?_⟩
  rw [Bool.eq_false_iff]
  intro hc
  rcases List.any_eq_true.mp hc with ⟨dd, hmem, hp⟩
  have : st.dirs.any (fun x => x.dropLast = p && x ≠ p) = true :=
    List.any_eq_true.mpr ⟨dd, hd dd hmem, hp⟩
  rw [h2] at this
  cases this

theorem rmdir_dirs (st : FS) (p : FPath) :
    (rmdir st p).dirs = st.dirs.filter (fun d => d ≠ p) := rfl

theorem rmdir_files (st : FS) (p : FPath) : (rmdir st p).files = st.files := rfl

theorem dirs_any_false (st : FS) (fp : FPath) (h : fp ∉ st.dirs) :
    (st.dirs.any fun d => d = fp) = false := by
  rw [Bool.eq_false_iff]
  intro hc
  rcases List.any_eq_true.mp hc with ⟨d, hmem, hp⟩
  have : d = fp := by simpa using hp
  exact h (this ▸ hmem)

/-- The full postcondition of the `rrmdir` walk (lines 300-312): files
are untouched; directories are only removed; every removed directory is a
prefix of the starting directory and never the base; removed directories
are empty in the final state; and — when the ancestor chain of the
starting directory exists — every surviving strict ancestor strictly
below the base is non-empty in the final state. -/
theorem rrmdirF_spec :
    ∀ (fuel : Nat) (mroot cur : FPath) (st : FS),
      cur.length < fuel → mroot <+: cur →
      (rrmdirF mroot fuel cur st).files = st.files ∧
      (∀ d ∈ (rrmdirF mroot fuel cur st).dirs, d ∈ st.dirs) ∧
      (∀ d ∈ st.dirs, d ∉ (rrmdirF mroot fuel cur st).dirs → d ≠ mroot ∧ d <+: cur) ∧
      (∀ d ∈ st.dirs, d ∉ (rrmdirF mroot fuel cur st).dirs →
        hasChild (rrmdirF mroot fuel cur st) d = false) ∧
      ((∀ e, mroot <+: e → e <+: cur → e ∈ st.dirs) →
        ∀ d ∈ (rrmdirF mroot fuel cur st).dirs, d <+: cur → mroot <+: d → d ≠ mroot →
          hasChild (rrmdirF mroot fuel cur st) d = true) := by
  intro fuel
  induction fuel with
  | zero => intro mroot cur st hf _; exact absurd hf (by omega)
  | succ fuel ih =>
      intro mroot cur st hf hmc
      by_cases hguard : cur ∈ st.dirs ∧ hasChild st cur = false ∧ mroot ≠ cur
      · have hstep : rrmdirF mroot (fuel + 1) cur st =
            rrmdirF mroot fuel cur.dropLast (rmdir st cur) := by
          rw [rrmdirF]
          rw [if_pos hguard]
        obtain ⟨hcur, hch, hmne⟩ := hguard
        have hcne : cur ≠ [] := by
          intro hc
          subst hc
          exact hmne (List.prefix_nil.mp hmc)
        have hcpos : 0 < cur.length := List.length_pos.mpr hcne
        have hlen2 : cur.dropLast.length < fuel := by
          rw [List.length_dropLast]
          omega
        have hmc2 : mroot <+: cur.dropLast := prefix_dropLast hmc hmne
        obtain ⟨ih1, ih2, ih3, ih4, ih5⟩ :=
          ih mroot cur.dropLast (rmdir st cur) hlen2 hmc2
        rw [hstep]
        have hsubfil : ∀ d ∈ (rrmdirF mroot fuel cur.dropLast (rmdir st cur)).dirs,
            d ∈ st.dirs ∧ d ≠ cur := by
          intro d hd
          have hmemf := ih2 d hd
          rw [rmdir_dirs, List.mem_filter] at hmemf
          exact ⟨hmemf.1, by simpa using hmemf.2⟩
        refine ⟨by rw [ih1, rmdir_files], fun d hd => (hsubfil d hd).1, ?_, ?_, ?_⟩
        · intro d hd hnd
          by_cases hdc : d = cur
          · subst hdc
            exact ⟨fun h => hmne h.symm, List.prefix_refl _⟩
          · have hd2 : d ∈ (rmdir st cur).dirs := by
              show d ∈ st.dirs.filter _
              rw [List.mem_filter]
              exact ⟨hd, by simpa using hdc⟩
            rcases ih3 d hd2 hnd with ⟨h1, h2⟩
            exact ⟨h1, h2.trans (dropLast_pref_self cur)⟩
        · intro d hd hnd
          by_cases hdc : d = cur
          · subst hdc
            exact hasChild_false_mono st _ d (by rw [ih1, rmdir_files])
              (fun x hx => (hsubfil x hx).1) hch
          · have hd2 : d ∈ (rmdir st cur).dirs := by
              show d ∈ st.dirs.filter _
              rw [List.mem_filter]
              exact ⟨hd, by simpa using hdc⟩
            exact ih4 d hd2 hnd
        · intro hchain d hd hdcur hmd hdne
          have hchain2 : ∀ e, mroot <+: e → e <+: cur.dropLast →
              e ∈ (rmdir st cur).dirs := by
            intro e he1 he2
            have hmem : e ∈ st.dirs := hchain e he1 (he2.trans (dropLast_pref_self cur))
            have hene : e ≠ cur := by
              intro hc
              subst hc
              have := he2.length_le
              rw [List.length_dropLast] at this
              omega
            show e ∈ st.dirs.filter _
            rw [List.mem_filter]
            exact ⟨hmem, by simpa using hene⟩
          by_cases hdc : d = cur
          · subst hdc
            exact absurd rfl (hsubfil d hd).2
          · exact ih5 hchain2 d hd (prefix_dropLast hdcur hdc) hmd hdne
      · have hstep : rrmdirF mroot (fuel + 1) cur st = st := by
          rw [rrmdirF]
          rw [if_neg hguard]
        rw [hstep]
        refine ⟨rfl, fun d hd => hd, fun d hd hnd => absurd hd hnd,
          fun d hd hnd => absurd hd hnd, ?_⟩
        intro hchain d hd hdcur hmd hdne
        by_cases hdc : d = cur
        · subst hdc
          cases hhc : hasChild st d with
          | true => rfl
          | false => exact absurd ⟨hd, hhc, fun h => hdne h.symm⟩ hguard
        · have hlt : d.length < cur.length := by
            have hle := hdcur.length_le
            rcases Nat.lt_or_ge d.length cur.length with h | h
            · exact h
            · have heq : d.length = cur.length := by omega
              have : d = cur := by
                have htake := List.prefix_iff_eq_take.mp hdcur
                rw [htake, heq, List.take_length]
              exact absurd this hdc
          obtain ⟨hcdrop, hcne, hcpre, hclen⟩ := take_succ_spec cur d hdcur hlt
          have hdc2 : d <+: cur.take (d.length + 1) := by
            rw [List.prefix_iff_eq_take]
            rw [List.take_take]
            rw [Nat.min_def]
            simp only [Nat.le_add_right, if_pos]
            exact List.prefix_iff_eq_take.mp hdcur
          have hcmem : cur.take (d.length + 1) ∈ st.dirs :=
            hchain _ (hmd.trans hdc2) hcpre
          unfold hasChild
          refine (Bool.or_eq_true _ _).mpr (Or.inr ?_)
          apply List.any_eq_true.mpr
          have hcne2 : cur.take (d.length + 1) ≠ d := fun h => hcne h.symm
          exact ⟨cur.take (d.length + 1), hcmem, by simp [hcdrop, hcne2]⟩

theorem splitChar_cons (sep c : Char) (l : List Char) :
    splitChar sep (c :: l) =
      if c = sep then [] :: splitChar sep l
      else
        match splitChar sep l with
        | h :: t => (c :: h) :: t
        | [] => [[c]] := rfl

theorem splitChar_ne_nil (sep : Char) : ∀ l, splitChar sep l ≠ [] := by
  intro l
  induction l with
  | nil => simp [splitChar]
  | cons c t ih =>
      rw [splitChar_cons]
      by_cases hc : c = sep
      · simp [hc]
      · cases hsp : splitChar sep t with
        | nil => exact absurd hsp ih
        | cons h t' => simp [hc]

theorem splitSlash_ne_nil (s : String) : splitSlash s ≠ [] := by
  unfold splitSlash
  intro hc
  exact splitChar_ne_nil '/' s.data (List.map_eq_nil_iff.mp hc)

/-- C9: for the filesystem backend, `remove_key` deletes exactly the
addressed file and then removes every now-empty ancestor directory up to,
but never including, the base directory: after it, (a) it returned `True`
iff the file existed (`False`, state unchanged, otherwise); (b) the files
are the original ones minus the addressed path; (c) the base directory
survives; (d) no directory appears; (e) only ancestors of the file's
directory (never the base) were removed; (f) every removed directory is
empty in the final state; (g) every surviving ancestor strictly between
the base and the file's directory is non-empty in the final state.
Hypotheses: the key encodes successfully, the addressed path is not
itself a directory, the base is non-empty and the ancestor chain of the
file's directory exists. -/
theorem claim_C9 (cfg : Config) (base : FPath) (st : FS) (key : List String) (rel : String)
    (hok : convertKeyToFilepath cfg key = .ok rel)
    (hnd : joinBase base rel ∉ st.dirs)
    (hbase : base ≠ [])
    (hchain : ∀ d ∈ ancestorsOf (joinBase base rel).dropLast,
      base.isPrefixOf d = true → d ∈ st.dirs) :
    (isFile st (joinBase base rel) = false →
      fsRemoveKey cfg base st key = .ok (st, false)) ∧
    (isFile st (joinBase base rel) = true →
      ∃ st', fsRemoveKey cfg base st key = .ok (st', true) ∧
        st'.files = st.files.filter (fun kv => kv.1 ≠ joinBase base rel) ∧
        (base ∈ st.dirs → base ∈ st'.dirs) ∧
        (∀ d ∈ st'.dirs, d ∈ st.dirs) ∧
        (∀ d ∈ st.dirs, d ∉ st'.dirs →
          d ≠ base ∧ d <+: (joinBase base rel).dropLast) ∧
        (∀ d ∈ st.dirs, d ∉ st'.dirs → hasChild st' d = false) ∧
        (∀ d ∈ st'.dirs, d <+: (joinBase base rel).dropLast → base <+: d → d ≠ base →
          hasChild st' d = true)) := by
  have hssne : splitSlash rel ≠ [] := splitSlash_ne_nil rel
  have hbp : base <+: (joinBase base rel).dropLast := by
    unfold joinBase
    rw [dropLast_append_ne base _ hssne]
    exact ⟨_, rfl⟩
  constructor
  · intro hnf
    unfold fsRemoveKey
    rw [hok]
    have hpe : pathExists st (joinBase base rel) = false := by
      unfold pathExists
      rw [hnf, dirs_any_false st _ hnd]
      rfl
    simp [hpe]
  · intro hif
    have hpe : pathExists st (joinBase base rel) = true := by
      unfold pathExists
      rw [hif]
      rfl
    have hrm : osRemove st (joinBase base rel) =
        .ok { st with files := st.files.filter (fun kv => kv.1 ≠ joinBase base rel) } := by
      unfold osRemove
      rw [if_pos hif]
    obtain ⟨s1, s2, s3, s4, s5⟩ :=
      rrmdirF_spec ((joinBase base rel).dropLast.length + 1) base
        (joinBase base rel).dropLast
        { st with files := st.files.filter (fun kv => kv.1 ≠ joinBase base rel) }
        (by omega) hbp
    refine ⟨_, ?_, by rw [s1], ?_, s2, s3, s4, ?_⟩
    · unfold fsRemoveKey
      rw [hok]
      simp [hpe, hrm]
    · intro hb
      by_contra hnb
      exact (s3 base hb hnb).1 rfl
    · intro d hd h1 h2 h3
      refine s5 ?_ d hd h1 h2 h3
      intro e he1 he2
      have hene : e ≠ [] := by
        intro hc
        subst hc
        exact hbase (List.prefix_nil.mp he1)
      exact hchain e ((mem_ancestorsOf_iff e _).mpr ⟨hene, he2⟩)
        (List.isPrefixOf_iff_prefix.mpr he1)

/-- Witness for C9: base `["b"]` holding the single file `b/d/f`;
removing key `("d","f")` deletes the file, removes the now-empty
directory `b/d`, and keeps the base. -/
theorem claim_C9_witness :
    ∃ st', fsRemoveKey ⟨none, none, none, ["/", "\\"], true⟩ ["b"]
        ⟨[(["b", "d", "f"], "v")], [["b"], ["b", "d"]]⟩ ["d", "f"] = .ok (st', true) ∧
      st'.files = [(["b", "d", "f"], "v")].filter
        (fun kv => kv.1 ≠ joinBase ["b"] "d/f") ∧
      (["b"] ∈ ([[ "b"], ["b", "d"]] : List FPath) → ["b"] ∈ st'.dirs) ∧
      (∀ d ∈ st'.dirs, d ∈ ([["b"], ["b", "d"]] : List FPath)) ∧
      (∀ d ∈ ([["b"], ["b", "d"]] : List FPath), d ∉ st'.dirs →
        d ≠ ["b"] ∧ d <+: (joinBase ["b"] "d/f").dropLast) ∧
      (∀ d ∈ ([["b"], ["b", "d"]] : List FPath), d ∉ st'.dirs → hasChild st' d = false) ∧
      (∀ d ∈ st'.dirs, d <+: (joinBase ["b"] "d/f").dropLast → ["b"] <+: d →
        d ≠ ["b"] → hasChild st' d = true) :=
  (claim_C9 ⟨none, none, none, ["/", "\\"], true⟩ ["b"]
    ⟨[(["b", "d", "f"], "v")], [["b"], ["b", "d"]]⟩ ["d", "f"] "d/f"
    (by decide) (by decide) (by decide) (by decide)).2 (by decide)

/-! ### Claim C1, amended: the round-trip property for canonical templates.

The counterexample above shows the property fails for arbitrary
templates (adjacent placeholders are ambiguous under the greedy regex).
The amended claim restricts to *canonical* templates: `/`-separated
segments, each either a literal made of plain characters (no separator,
no braces, no live regex metacharacter, no newline) or exactly one
placeholder `{i}`, the placeholders distinct and their indices covering
`0 .. arity-1`; and to keys whose components are non-empty, contain no
forbidden substring, no newline, and are not `.` or `..` (which path
normalization would rewrite).  The following definitions describe that
class; they are spec-side descriptions of template shapes, compared
against the source-side codec. -/

/-- A segment of a canonical template: a literal path segment or a single
positional placeholder with digit string `ds`. -/
inductive Seg where
  | strSeg : List Char → Seg
  | phSeg : List Char → Seg
  deriving DecidableEq

/-- Characters allowed in canonical literal segments: everything except
the separator, backslash, newline, braces, and the regex metacharacters
that `_convert_filepath_to_key` would otherwise interpret. -/
def plainChar (c : Char) : Bool :=
  decide (c ∉ ['.', '*', '+', '?', '(', ')', '[', ']', '{', '}',
    '^', '$', '|', '\\', '/', '\n'])

/-- The template text of a segment. -/
def segTmpl : Seg → List Char
  | .strSeg l => l
  | .phSeg ds => '{' :: (ds ++ ['}'])

/-- The rendered text of a segment under a key. -/
def segVal (key : List String) : Seg → List Char
  | .strSeg l => l
  | .phSeg ds => (key.getD (natOfDigits ds) "").data

/-- The regex pattern of a segment. -/
def segPat : Seg → List RItem
  | .strSeg l => l.map RItem.lit
  | .phSeg ds => [RItem.group ds]

/-- The canonical template text: segments joined by `/`. -/
def tmplL : List Seg → List Char
  | [] => []
  | [s] => segTmpl s
  | s :: s2 :: rest => segTmpl s ++ '/' :: tmplL (s2 :: rest)

/-- The encoded path text: rendered segments joined by `/`. -/
def strL (key : List String) : List Seg → List Char
  | [] => []
  | [s] => segVal key s
  | s :: s2 :: rest => segVal key s ++ '/' :: strL key (s2 :: rest)

/-- The compiled pattern: segment patterns joined by a literal `/`. -/
def patL : List Seg → List RItem
  | [] => []
  | [s] => segPat s
  | s :: s2 :: rest => segPat s ++ RItem.lit '/' :: patL (s2 :: rest)

/-- The capture list the matcher returns on the encoded path. -/
def capsL (key : List String) (segs : List Seg) : List (List Char × List Char) :=
  segs.filterMap fun s =>
    match s with
    | .phSeg ds => some (ds, (key.getD (natOfDigits ds) "").data)
    | _ => none

/-- The placeholder digit strings, in order. -/
def occL (segs : List Seg) : List (List Char) :=
  segs.filterMap fun s =>
    match s with
    | .phSeg ds => some ds
    | _ => none

def goodSeg : Seg → Bool
  | .strSeg l => !l.isEmpty && l.all plainChar
  | .phSeg ds => !ds.isEmpty && ds.all Char.isDigit

/-- A canonical key component: non-empty, free of the default forbidden
substrings, no newline, and not a normalization-special segment. -/
def goodComp (k : String) : Bool :=
  !(decide (k = "")) && !(strContains k "/") && !(strContains k "\\") &&
    !(k.data.contains '\n') && !(decide (k = ".")) && !(decide (k = ".."))

/-- The backend configuration of the amended claim: the canonical
template, no affixes, default forbidden substrings, and the default
`platform_specific_separator = True`. -/
def tmplCfg (segs : List Seg) : Config :=
  ⟨some ⟨tmplL segs⟩, none, none, ["/", "\\"], true⟩

/-! #### Matcher support lemmas. -/

theorem take_len_append {α : Type} : ∀ (a b : List α), (a ++ b).take a.length = a := by
  intro a
  induction a with
  | nil => intro b; rfl
  | cons x t ih => intro b; simp [ih b]

theorem drop_len_append {α : Type} : ∀ (a b : List α), (a ++ b).drop a.length = b := by
  intro a
  induction a with
  | nil => intro b; rfl
  | cons x t ih => intro b; simp

theorem drop_append_ge {α : Type} :
    ∀ (a b : List α) (n : Nat), a.length ≤ n → (a ++ b).drop n = b.drop (n - a.length) := by
  intro a
  induction a with
  | nil => intro b n _; rfl
  | cons x t ih =>
      intro b n hn
      cases n with
      | zero => exact absurd hn (by simp)
      | succ n =>
          show (t ++ b).drop n = b.drop (n + 1 - (t.length + 1))
          rw [ih b n (by simpa using hn)]
          congr 1
          omega

theorem rmatch_lits (l : List Char) :
    ∀ (ps : List RItem) (s : List Char),
      rmatch (l.map RItem.lit ++ ps) (l ++ s) = rmatch ps s := by
  induction l with
  | nil => intro ps s; rfl
  | cons c t ih =>
      intro ps s
      show rmatch (RItem.lit c :: (t.map RItem.lit ++ ps)) (c :: (t ++ s)) = rmatch ps s
      rw [show rmatch (RItem.lit c :: (t.map RItem.lit ++ ps)) (c :: (t ++ s)) =
          if c = c then rmatch (t.map RItem.lit ++ ps) (t ++ s) else none from rfl]
      rw [if_pos rfl]
      exact ih ps s

theorem findSome?_none {α β : Type} (f : α → Option β) :
    ∀ l : List α, (∀ a ∈ l, f a = none) → l.findSome? f = none := by
  intro l
  induction l with
  | nil => intro _; rfl
  | cons a t ih =>
      intro h
      rw [List.findSome?_cons]
      rw [h a (by simp)]
      exact ih (fun x hx => h x (by simp [hx]))

/-- The greedy selection over candidate lengths `L, L-1, …, 0`: if every
candidate above `n₀` fails and `n₀` succeeds with `r`, the scan returns
`r`. -/
theorem findSome?_countdown_greedy {β : Type} (f : Nat → Option β) :
    ∀ (L n₀ : Nat) (r : β), n₀ ≤ L → (∀ n, n₀ < n → n ≤ L → f n = none) →
      f n₀ = some r → (countdown L).findSome? f = some r := by
  intro L
  induction L with
  | zero =>
      intro n₀ r h0 _ hr
      have hz : n₀ = 0 := by omega
      subst hz
      rw [show countdown 0 = [0] from rfl, List.findSome?_cons, hr]
  | succ L ih =>
      intro n₀ r h0 hnone hr
      rw [show countdown (L + 1) = (L + 1) :: countdown L from rfl, List.findSome?_cons]
      by_cases hL : n₀ = L + 1
      · subst hL
        rw [hr]
      · rw [hnone (L + 1) (by omega) (by omega)]
        exact ih n₀ r (by omega) (fun n h1 h2 => hnone n h1 (by omega)) hr

/-- Slashes in a string. -/
def cslash : List Char → Nat
  | [] => 0
  | c :: t => (if c = '/' then 1 else 0) + cslash t

/-- Literal-`/` atoms in a pattern. -/
def slashLits : List RItem → Nat
  | [] => 0
  | it :: t => (if it = RItem.lit '/' then 1 else 0) + slashLits t

theorem cslash_append : ∀ a b, cslash (a ++ b) = cslash a + cslash b := by
  intro a
  induction a with
  | nil => intro b; simp [cslash]
  | cons c t ih =>
      intro b
      show (if c = '/' then 1 else 0) + cslash (t ++ b) =
        ((if c = '/' then 1 else 0) + cslash t) + cslash b
      rw [ih b]
      omega

theorem slashLits_append : ∀ a b, slashLits (a ++ b) = slashLits a + slashLits b := by
  intro a
  induction a with
  | nil => intro b; simp [slashLits]
  | cons c t ih =>
      intro b
      show (if c = RItem.lit '/' then 1 else 0) + slashLits (t ++ b) =
        ((if c = RItem.lit '/' then 1 else 0) + slashLits t) + slashLits b
      rw [ih b]
      omega

theorem cslash_zero_of_no_slash : ∀ l, '/' ∉ l → cslash l = 0 := by
  intro l
  induction l with
  | nil => intro _; rfl
  | cons c t ih =>
      intro h
      show (if c = '/' then 1 else 0) + cslash t = 0
      rw [if_neg (fun hc => h (by simp [hc])), ih (fun hc => h (by simp [hc]))]

theorem cslash_drop_le : ∀ (l : List Char) (n : Nat), cslash (l.drop n) ≤ cslash l := by
  intro l
  induction l with
  | nil => intro n; simp
  | cons c t ih =>
      intro n
      cases n with
      | zero => exact Nat.le_refl _
      | succ n =>
          show cslash (t.drop n) ≤ (if c = '/' then 1 else 0) + cslash t
          have := ih n
          omega

/-- A pattern demanding more literal slashes than the string holds cannot
match. -/
theorem rmatch_slash_deficit :
    ∀ (ps : List RItem) (s : List Char), cslash s < slashLits ps → rmatch ps s = none := by
  intro ps
  induction ps with
  | nil => intro s h; exact absurd h (by simp [slashLits])
  | cons it t ih =>
      intro s h
      cases it with
      | lit c =>
          cases s with
          | nil => rfl
          | cons x xs =>
              rw [show rmatch (RItem.lit c :: t) (x :: xs) =
                  if x = c then rmatch t xs else none from rfl]
              by_cases hxc : x = c
              · rw [if_pos hxc]
                apply ih
                subst hxc
                have hs : cslash (x :: xs) = (if x = '/' then 1 else 0) + cslash xs := rfl
                have hp : slashLits (RItem.lit x :: t) =
                    (if RItem.lit x = RItem.lit '/' then 1 else 0) + slashLits t := rfl
                rw [hs, hp] at h
                by_cases hx : x = '/'
                · simp [hx] at h
                  omega
                · rw [if_neg hx, if_neg (by simp [hx])] at h
                  omega
              · rw [if_neg hxc]
      | dot =>
          cases s with
          | nil => rfl
          | cons x xs =>
              rw [show rmatch (RItem.dot :: t) (x :: xs) =
                  if x = '\n' then none else rmatch t xs from rfl]
              by_cases hx : x = '\n'
              · rw [if_pos hx]
              · rw [if_neg hx]
                apply ih
                have hs : cslash (x :: xs) = (if x = '/' then 1 else 0) + cslash xs := rfl
                have hp : slashLits (RItem.dot :: t) = 0 + slashLits t := rfl
                rw [hs, hp] at h
                omega
      | group ds =>
          rw [show rmatch (RItem.group ds :: t) s =
              (countdown (nonNlLen s)).findSome? (fun n =>
                (rmatch t (s.drop n)).map (fun caps => (ds, s.take n) :: caps)) from rfl]
          apply findSome?_none
          intro n _
          have hnone : rmatch t (s.drop n) = none := by
            apply ih
            have h1 := cslash_drop_le s n
            have hp : slashLits (RItem.group ds :: t) = 0 + slashLits t := rfl
            rw [hp] at h
            omega
          rw [hnone]
          rfl

theorem takeWhile_append_all {p : Char → Bool} :
    ∀ (v t : List Char), (∀ c ∈ v, p c = true) →
      (v ++ t).takeWhile p = v ++ t.takeWhile p := by
  intro v
  induction v with
  | nil => intro t _; rfl
  | cons c v ih =>
      intro t h
      show ((c :: (v ++ t)).takeWhile p) = c :: (v ++ t.takeWhile p)
      rw [List.takeWhile_cons, h c (by simp)]
      simp [ih t (fun x hx => h x (by simp [hx]))]

theorem nonNlLen_append_ge (v t : List Char) (h : '\n' ∉ v) :
    v.length ≤ nonNlLen (v ++ t) := by
  unfold nonNlLen
  rw [takeWhile_append_all v t (fun c hc => by
    simp
    intro hcc
    exact h (hcc ▸ hc))]
  rw [List.length_append]
  omega

theorem takeWhile_length_le (p : Char → Bool) :
    ∀ l : List Char, (l.takeWhile p).length ≤ l.length := by
  intro l
  induction l with
  | nil => simp
  | cons c t ih =>
      rw [List.takeWhile_cons]
      by_cases hc : p c = true
      · rw [hc]
        simpa using ih
      · rw [show p c = false from by simpa using hc]
        simp

theorem nonNlLen_eq_length (v : List Char) (h : '\n' ∉ v) : nonNlLen v = v.length := by
  have h1 := nonNlLen_append_ge v [] h
  have h2 : nonNlLen v ≤ v.length := takeWhile_length_le _ _
  simp only [List.append_nil] at h1
  omega

/-- The rendered text of a segment is separator- and newline-free. -/
def valOK (v : List Char) : Prop := '/' ∉ v ∧ '\n' ∉ v

theorem slashLits_map_lit : ∀ l : List Char, '/' ∉ l → slashLits (l.map RItem.lit) = 0 := by
  intro l
  induction l with
  | nil => intro _; rfl
  | cons c t ih =>
      intro h
      show (if RItem.lit c = RItem.lit '/' then 1 else 0) + slashLits (t.map RItem.lit) = 0
      rw [if_neg (by simp; intro hc; exact h (by simp [hc])),
        ih (fun hc => h (by simp [hc]))]

theorem slashLits_segPat (key : List String) (s : Seg) (h : valOK (segVal key s)) :
    slashLits (segPat s) = 0 := by
  cases s with
  | strSeg l => exact slashLits_map_lit l h.1
  | phSeg ds => simp [segPat, slashLits]

theorem slashLits_patL (key : List String) :
    ∀ segs : List Seg, (∀ s ∈ segs, valOK (segVal key s)) →
      slashLits (patL segs) = segs.length - 1 := by
  intro segs
  induction segs with
  | nil => intro _; rfl
  | cons s rest ih =>
      intro hval
      cases rest with
      | nil =>
          show slashLits (segPat s) = 0
          exact slashLits_segPat key s (hval s (by simp))
      | cons s2 rest2 =>
          show slashLits (segPat s ++ RItem.lit '/' :: patL (s2 :: rest2)) = _
          rw [slashLits_append]
          rw [slashLits_segPat key s (hval s (by simp))]
          rw [show slashLits (RItem.lit '/' :: patL (s2 :: rest2)) =
              (if RItem.lit '/' = RItem.lit '/' then 1 else 0) +
                slashLits (patL (s2 :: rest2)) from rfl]
          rw [if_pos rfl, ih (fun x hx => hval x (by simp [hx]))]
          simp only [List.length_cons]
          omega

theorem cslash_strL (key : List String) :
    ∀ segs : List Seg, (∀ s ∈ segs, valOK (segVal key s)) →
      cslash (strL key segs) = segs.length - 1 := by
  intro segs
  induction segs with
  | nil => intro _; rfl
  | cons s rest ih =>
      intro hval
      cases rest with
      | nil =>
          show cslash (segVal key s) = 0
          exact cslash_zero_of_no_slash _ (hval s (by simp)).1
      | cons s2 rest2 =>
          show cslash (segVal key s ++ '/' :: strL key (s2 :: rest2)) = _
          rw [cslash_append]
          rw [cslash_zero_of_no_slash _ (hval s (by simp)).1]
          rw [show cslash ('/' :: strL key (s2 :: rest2)) =
              (if ('/' : Char) = '/' then 1 else 0) + cslash (strL key (s2 :: rest2)) from rfl]
          rw [if_pos rfl, ih (fun x hx => hval x (by simp [hx]))]
          simp only [List.length_cons]
          omega

/-- The greedy matcher recovers exactly the canonical captures on a
canonical path: each group captures its whole path segment. -/
theorem rmatch_patL (key : List String) :
    ∀ segs : List Seg, segs ≠ [] → (∀ s ∈ segs, valOK (segVal key s)) →
      rmatch (patL segs) (strL key segs) = some (capsL key segs) := by
  intro segs
  induction segs with
  | nil => intro h _; exact absurd rfl h
  | cons s rest ih =>
      intro _ hval
      cases rest with
      | nil =>
          cases s with
          | strSeg l =>
              show rmatch (l.map RItem.lit) l = some []
              have h0 := rmatch_lits l [] []
              simpa using h0
          | phSeg ds =>
              have hvNl : '\n' ∉ (key.getD (natOfDigits ds) "").data :=
                (hval (Seg.phSeg ds) (by simp)).2
              show rmatch [RItem.group ds] ((key.getD (natOfDigits ds) "").data) =
                some [(ds, (key.getD (natOfDigits ds) "").data)]
              rw [show rmatch [RItem.group ds] ((key.getD (natOfDigits ds) "").data) =
                  (countdown (nonNlLen ((key.getD (natOfDigits ds) "").data))).findSome?
                    (fun n =>
                      (rmatch [] (((key.getD (natOfDigits ds) "").data).drop n)).map
                        (fun caps =>
                          (ds, ((key.getD (natOfDigits ds) "").data).take n) :: caps))
                from rfl]
              rw [nonNlLen_eq_length _ hvNl]
              apply findSome?_countdown_greedy _ _
                ((key.getD (natOfDigits ds) "").data).length _ (Nat.le_refl _)
                (fun n h1 h2 => absurd (Nat.lt_of_lt_of_le h1 h2) (Nat.lt_irrefl _))
              rw [show rmatch ([] : List RItem)
                  (((key.getD (natOfDigits ds) "").data).drop
                    ((key.getD (natOfDigits ds) "").data).length) = some [] from rfl]
              rw [List.take_length]
              rfl
      | cons s2 rest2 =>
          have hval2 : ∀ x ∈ s2 :: rest2, valOK (segVal key x) :=
            fun x hx => hval x (by simp [hx])
          have ihm := ih (by simp) hval2
          cases s with
          | strSeg l =>
              show rmatch (l.map RItem.lit ++ (RItem.lit '/' :: patL (s2 :: rest2)))
                  (l ++ '/' :: strL key (s2 :: rest2)) = some (capsL key (s2 :: rest2))
              rw [rmatch_lits l]
              rw [show rmatch (RItem.lit '/' :: patL (s2 :: rest2))
                  ('/' :: strL key (s2 :: rest2)) =
                  if ('/' : Char) = '/' then
                    rmatch (patL (s2 :: rest2)) (strL key (s2 :: rest2))
                  else none from rfl]
              rw [if_pos rfl]
              exact ihm
          | phSeg ds =>
              have hvNl : '\n' ∉ (key.getD (natOfDigits ds) "").data :=
                (hval (Seg.phSeg ds) (by simp)).2
              set v := (key.getD (natOfDigits ds) "").data with hvdef
              set S2 := strL key (s2 :: rest2) with hS2def
              show rmatch (RItem.group ds :: (RItem.lit '/' :: patL (s2 :: rest2)))
                  (v ++ '/' :: S2) = some ((ds, v) :: capsL key (s2 :: rest2))
              rw [show rmatch (RItem.group ds :: (RItem.lit '/' :: patL (s2 :: rest2)))
                  (v ++ '/' :: S2) =
                  (countdown (nonNlLen (v ++ '/' :: S2))).findSome? (fun n =>
                    (rmatch (RItem.lit '/' :: patL (s2 :: rest2))
                        ((v ++ '/' :: S2).drop n)).map
                      (fun caps => (ds, (v ++ '/' :: S2).take n) :: caps)) from rfl]
              apply findSome?_countdown_greedy _ _ v.length _
                (nonNlLen_append_ge v _ hvNl) ?_ ?_
              · intro n hn _
                have hdrop : (v ++ '/' :: S2).drop n = ('/' :: S2).drop (n - v.length) :=
                  drop_append_ge v _ n (by omega)
                rw [hdrop]
                have hk : n - v.length = (n - v.length - 1) + 1 := by omega
                rw [hk]
                rw [show ('/' :: S2).drop ((n - v.length - 1) + 1) =
                    S2.drop (n - v.length - 1) from rfl]
                cases hsd : S2.drop (n - v.length - 1) with
                | nil => rfl
                | cons c tail =>
                    by_cases hc : c = '/'
                    · subst hc
                      rw [show rmatch (RItem.lit '/' :: patL (s2 :: rest2)) ('/' :: tail) =
                          if ('/' : Char) = '/' then rmatch (patL (s2 :: rest2)) tail
                          else none from rfl]
                      rw [if_pos rfl]
                      have hcsS2 : cslash S2 = (s2 :: rest2).length - 1 :=
                        cslash_strL key (s2 :: rest2) hval2
                      have hslP : slashLits (patL (s2 :: rest2)) = (s2 :: rest2).length - 1 :=
                        slashLits_patL key (s2 :: rest2) hval2
                      have h1 : cslash (S2.drop (n - v.length - 1)) ≤ cslash S2 :=
                        cslash_drop_le S2 _
                      rw [hsd] at h1
                      rw [show cslash ('/' :: tail) = 1 + cslash tail from by
                        show (if ('/' : Char) = '/' then 1 else 0) + cslash tail = _
                        rw [if_pos rfl]] at h1
                      rw [hcsS2] at h1
                      have hdef : cslash tail < slashLits (patL (s2 :: rest2)) := by
                        rw [hslP]
                        simp only [List.length_cons] at h1 ⊢
                        omega
                      rw [rmatch_slash_deficit _ tail hdef]
                      rfl
                    · rw [show rmatch (RItem.lit '/' :: patL (s2 :: rest2)) (c :: tail) =
                          if c = '/' then rmatch (patL (s2 :: rest2)) tail
                          else none from rfl]
                      rw [if_neg hc]
                      rfl
              · rw [drop_len_append v ('/' :: S2), take_len_append v ('/' :: S2)]
                rw [show rmatch (RItem.lit '/' :: patL (s2 :: rest2)) ('/' :: S2) =
                    if ('/' : Char) = '/' then rmatch (patL (s2 :: rest2)) S2
                    else none from rfl]
                rw [if_pos rfl, ihm]
                rfl

/-! #### `str.format` and the template compiler on canonical templates. -/

theorem plainChar_ne (c : Char) (h : plainChar c = true) :
    c ≠ '.' ∧ c ≠ '{' ∧ c ≠ '}' ∧ c ≠ '/' ∧ c ≠ '\\' ∧ c ≠ '\n' := by
  simp only [plainChar, decide_eq_true_eq] at h
  simp only [List.mem_cons, List.mem_singleton, not_or] at h
  refine ⟨h.1, ?_, ?_, ?_, ?_, ?_⟩ <;> tauto

theorem takeWhile_digits (ds tail : List Char) (hdig : ∀ c ∈ ds, c.isDigit = true) :
    (ds ++ '}' :: tail).takeWhile Char.isDigit = ds := by
  rw [takeWhile_append_all ds _ hdig, List.takeWhile_cons]
  rw [show ('}' : Char).isDigit = false from rfl]
  simp

theorem pyFormatF_cons_other (key : List String) (f : Nat) (c : Char) (rest : List Char)
    (h1 : c ≠ '{') (h2 : c ≠ '}') :
    pyFormatF key (f + 1) (c :: rest) = (pyFormatF key f rest).map (fun r => c :: r) := by
  simp only [pyFormatF]
  rw [if_neg h1, if_neg h2]

theorem pyFormatF_placeholder (key : List String) (f : Nat) (ds tail : List Char)
    (hds : ds ≠ []) (hdig : ∀ c ∈ ds, c.isDigit = true) :
    pyFormatF key (f + 1) ('{' :: (ds ++ '}' :: tail)) =
      match key.get? (natOfDigits ds) with
      | some v => (pyFormatF key f tail).map (fun r => v.data ++ r)
      | none => none := by
  have htw := takeWhile_digits ds tail hdig
  have hdp : (ds ++ '}' :: tail).drop ds.length = '}' :: tail := drop_len_append ds _
  simp only [pyFormatF, if_pos rfl, htw, if_neg hds, hdp]
  simp

theorem pyFormatF_lit_chunk (key : List String) :
    ∀ (l : List Char), (∀ c ∈ l, c ≠ '{' ∧ c ≠ '}') →
      ∀ (t : List Char) (g : Nat),
        pyFormatF key (l.length + g) (l ++ t) = (pyFormatF key g t).map (fun r => l ++ r) := by
  intro l
  induction l with
  | nil =>
      intro _ t g
      simp
  | cons c l' ih =>
      intro hl t g
      have hfu : (c :: l').length + g = (l'.length + g) + 1 := by
        simp only [List.length_cons]
        omega
      rw [hfu]
      show pyFormatF key ((l'.length + g) + 1) (c :: (l' ++ t)) = _
      rw [pyFormatF_cons_other key _ c _ (hl c (by simp)).1 (hl c (by simp)).2]
      rw [ih (fun x hx => hl x (by simp [hx])) t g]
      rw [Option.map_map]
      rfl

/-- Formatting a canonical template substitutes each placeholder's
component (simultaneously the statement that no `IndexError` occurs). -/
theorem pyFormatF_tmplL (key : List String) :
    ∀ (segs : List Seg), segs ≠ [] →
      (∀ s ∈ segs, goodSeg s = true) →
      (∀ ds, Seg.phSeg ds ∈ segs → natOfDigits ds < key.length) →
      ∀ f : Nat, (tmplL segs).length < f →
        pyFormatF key f (tmplL segs) = some (strL key segs) := by
  intro segs
  induction segs with
  | nil => intro h; exact absurd rfl h
  | cons s rest ih =>
      intro _ hgood hidx f hf
      cases rest with
      | nil =>
          cases s with
          | strSeg l =>
              have hg := hgood (Seg.strSeg l) (by simp)
              simp only [goodSeg, Bool.and_eq_true, List.all_eq_true] at hg
              have hl : ∀ c ∈ l, c ≠ '{' ∧ c ≠ '}' := by
                intro c hc
                have := plainChar_ne c (hg.2 c hc)
                exact ⟨this.2.1, this.2.2.1⟩
              show pyFormatF key f l = some l
              have hlen : l.length < f := hf
              obtain ⟨g, rfl⟩ : ∃ g, f = l.length + (g + 1) :=
                ⟨f - l.length - 1, by omega⟩
              have hchunk := pyFormatF_lit_chunk key l hl [] (g + 1)
              rw [List.append_nil] at hchunk
              rw [hchunk]
              simp [pyFormatF]
          | phSeg ds =>
              have hg := hgood (Seg.phSeg ds) (by simp)
              simp only [goodSeg, Bool.and_eq_true, List.all_eq_true] at hg
              have hds : ds ≠ [] := by
                intro hc
                rw [hc] at hg
                simp at hg
              have hlt : natOfDigits ds < key.length := hidx ds (by simp)
              obtain ⟨g, rfl⟩ : ∃ g, f = g + 1 := ⟨f - 1, by omega⟩
              show pyFormatF key (g + 1) ('{' :: (ds ++ ['}'])) = _
              rw [show (ds ++ ['}']) = ds ++ '}' :: [] from rfl]
              rw [pyFormatF_placeholder key g ds [] hds hg.2]
              rw [get?_eq_some_getD key (natOfDigits ds) "" hlt]
              have hg1 : 0 < g := by
                have : 3 ≤ (tmplL [Seg.phSeg ds]).length := by
                  show 3 ≤ ('{' :: (ds ++ ['}'])).length
                  simp only [List.length_cons, List.length_append, List.length_singleton]
                  have : 1 ≤ ds.length := by
                    cases ds with
                    | nil => exact absurd rfl hds
                    | cons a b => simp
                  omega
                omega
              obtain ⟨g', rfl⟩ : ∃ g', g = g' + 1 := ⟨g - 1, by omega⟩
              rw [show pyFormatF key (g' + 1) [] = some [] from rfl]
              simp [strL, segVal]
      | cons s2 rest2 =>
          have hidx2 : ∀ ds, Seg.phSeg ds ∈ s2 :: rest2 → natOfDigits ds < key.length :=
            fun ds hds => hidx ds (by simp [hds])
          have hgood2 : ∀ x ∈ s2 :: rest2, goodSeg x = true :=
            fun x hx => hgood x (by simp [hx])
          cases s with
          | strSeg l =>
              have hg := hgood (Seg.strSeg l) (by simp)
              simp only [goodSeg, Bool.and_eq_true, List.all_eq_true] at hg
              have hl : ∀ c ∈ l ++ ['/'], c ≠ '{' ∧ c ≠ '}' := by
                intro c hc
                rcases List.mem_append.mp hc with hc1 | hc2
                · have := plainChar_ne c (hg.2 c hc1)
                  exact ⟨this.2.1, this.2.2.1⟩
                · have : c = '/' := by simpa using hc2
                  subst this
                  exact ⟨by decide, by decide⟩
              show pyFormatF key f (l ++ '/' :: tmplL (s2 :: rest2)) =
                some (segVal key (Seg.strSeg l) ++ '/' :: strL key (s2 :: rest2))
              rw [show (l ++ '/' :: tmplL (s2 :: rest2)) =
                  (l ++ ['/']) ++ tmplL (s2 :: rest2) from by simp]
              have hflen : (l ++ '/' :: tmplL (s2 :: rest2)).length < f := hf
              rw [List.length_append, List.length_cons] at hflen
              have hchunk := pyFormatF_lit_chunk key (l ++ ['/']) hl
                (tmplL (s2 :: rest2)) (f - (l ++ ['/']).length)
              have hfeq : (l ++ ['/']).length + (f - (l ++ ['/']).length) = f := by
                simp only [List.length_append, List.length_singleton]
                omega
              rw [hfeq] at hchunk
              rw [hchunk]
              rw [ih (by simp) hgood2 hidx2 (f - (l ++ ['/']).length) (by
                simp only [List.length_append, List.length_singleton]
                omega)]
              show some ((l ++ ['/']) ++ strL key (s2 :: rest2)) = _
              simp [segVal]
          | phSeg ds =>
              have hg := hgood (Seg.phSeg ds) (by simp)
              simp only [goodSeg, Bool.and_eq_true, List.all_eq_true] at hg
              have hds : ds ≠ [] := by
                intro hc
                rw [hc] at hg
                simp at hg
              have hlt : natOfDigits ds < key.length := hidx ds (by simp)
              obtain ⟨g, rfl⟩ : ∃ g, f = g + 1 := ⟨f - 1, by omega⟩
              show pyFormatF key (g + 1)
                ('{' :: ((ds ++ ['}']) ++ '/' :: tmplL (s2 :: rest2))) = _
              rw [show ((ds ++ ['}']) ++ '/' :: tmplL (s2 :: rest2)) =
                  ds ++ '}' :: ('/' :: tmplL (s2 :: rest2)) from by simp]
              rw [pyFormatF_placeholder key g ds _ hds hg.2]
              rw [get?_eq_some_getD key (natOfDigits ds) "" hlt]
              have hflen : ('{' :: ((ds ++ ['}']) ++ '/' :: tmplL (s2 :: rest2))).length
                  < g + 1 := hf
              simp only [List.length_cons, List.length_append,
                List.length_singleton] at hflen
              obtain ⟨g', rfl⟩ : ∃ g', g = g' + 1 := ⟨g - 1, by omega⟩
              rw [pyFormatF_cons_other key g' '/' _ (by decide) (by decide)]
              rw [ih (by simp) hgood2 hidx2 g' (by omega)]
              simp [strL, segVal]

theorem compileTF_nil : ∀ f, compileTF f [] = [] := by
  intro f
  cases f <;> rfl

theorem compileTF_cons_other (f : Nat) (c : Char) (rest : List Char) (h1 : c ≠ '{') :
    compileTF (f + 1) (c :: rest) =
      (if c = '.' then RItem.dot else RItem.lit c) :: compileTF f rest := by
  simp only [compileTF]
  rw [if_neg h1]

theorem compileTF_placeholder (f : Nat) (ds tail : List Char)
    (hds : ds ≠ []) (hdig : ∀ c ∈ ds, c.isDigit = true) :
    compileTF (f + 1) ('{' :: (ds ++ '}' :: tail)) = RItem.group ds :: compileTF f tail := by
  have htw := takeWhile_digits ds tail hdig
  have hdp : (ds ++ '}' :: tail).drop ds.length = '}' :: tail := drop_len_append ds _
  simp only [compileTF, if_pos rfl, htw, if_neg hds, hdp]
  simp

theorem compileTF_lit_chunk :
    ∀ (l : List Char), (∀ c ∈ l, c ≠ '{' ∧ c ≠ '.') →
      ∀ (t : List Char) (g : Nat),
        compileTF (l.length + g) (l ++ t) = l.map RItem.lit ++ compileTF g t := by
  intro l
  induction l with
  | nil => intro _ t g; simp
  | cons c l' ih =>
      intro hl t g
      have hfu : (c :: l').length + g = (l'.length + g) + 1 := by
        simp only [List.length_cons]
        omega
      rw [hfu]
      show compileTF ((l'.length + g) + 1) (c :: (l' ++ t)) = _
      rw [compileTF_cons_other _ c _ (hl c (by simp)).1]
      rw [if_neg (hl c (by simp)).2]
      rw [ih (fun x hx => hl x (by simp [hx])) t g]
      rfl

/-- Compiling a canonical template yields exactly the canonical pattern. -/
theorem compileTF_tmplL :
    ∀ (segs : List Seg), segs ≠ [] → (∀ s ∈ segs, goodSeg s = true) →
      ∀ f : Nat, (tmplL segs).length < f → compileTF f (tmplL segs) = patL segs := by
  intro segs
  induction segs with
  | nil => intro h; exact absurd rfl h
  | cons s rest ih =>
      intro _ hgood f hf
      cases rest with
      | nil =>
          cases s with
          | strSeg l =>
              have hg := hgood (Seg.strSeg l) (by simp)
              simp only [goodSeg, Bool.and_eq_true, List.all_eq_true] at hg
              have hl : ∀ c ∈ l, c ≠ '{' ∧ c ≠ '.' := by
                intro c hc
                have := plainChar_ne c (hg.2 c hc)
                exact ⟨this.2.1, this.1⟩
              show compileTF f l = l.map RItem.lit
              have hlen : l.length < f := hf
              have hchunk := compileTF_lit_chunk l hl [] (f - l.length)
              rw [List.append_nil] at hchunk
              rw [show l.length + (f - l.length) = f from by omega] at hchunk
              rw [hchunk, compileTF_nil, List.append_nil]
          | phSeg ds =>
              have hg := hgood (Seg.phSeg ds) (by simp)
              simp only [goodSeg, Bool.and_eq_true, List.all_eq_true] at hg
              have hds : ds ≠ [] := by
                intro hc
                rw [hc] at hg
                simp at hg
              obtain ⟨g, rfl⟩ : ∃ g, f = g + 1 := ⟨f - 1, by omega⟩
              show compileTF (g + 1) ('{' :: (ds ++ ['}'])) = [RItem.group ds]
              rw [show (ds ++ ['}']) = ds ++ '}' :: [] from rfl]
              rw [compileTF_placeholder g ds [] hds hg.2, compileTF_nil]
      | cons s2 rest2 =>
          have hgood2 : ∀ x ∈ s2 :: rest2, goodSeg x = true :=
            fun x hx => hgood x (by simp [hx])
          cases s with
          | strSeg l =>
              have hg := hgood (Seg.strSeg l) (by simp)
              simp only [goodSeg, Bool.and_eq_true, List.all_eq_true] at hg
              have hl : ∀ c ∈ l ++ ['/'], c ≠ '{' ∧ c ≠ '.' := by
                intro c hc
                rcases List.mem_append.mp hc with hc1 | hc2
                · have := plainChar_ne c (hg.2 c hc1)
                  exact ⟨this.2.1, this.1⟩
                · have : c = '/' := by simpa using hc2
                  subst this
                  exact ⟨by decide, by decide⟩
              show compileTF f (l ++ '/' :: tmplL (s2 :: rest2)) =
                l.map RItem.lit ++ RItem.lit '/' :: patL (s2 :: rest2)
              rw [show (l ++ '/' :: tmplL (s2 :: rest2)) =
                  (l ++ ['/']) ++ tmplL (s2 :: rest2) from by simp]
              have hflen : (l ++ '/' :: tmplL (s2 :: rest2)).length < f := hf
              rw [List.length_append, List.length_cons] at hflen
              have hchunk := compileTF_lit_chunk (l ++ ['/']) hl
                (tmplL (s2 :: rest2)) (f - (l ++ ['/']).length)
              rw [show (l ++ ['/']).length + (f - (l ++ ['/']).length) = f from by
                simp only [List.length_append, List.length_singleton]
                omega] at hchunk
              rw [hchunk]
              rw [ih (by simp) hgood2 (f - (l ++ ['/']).length) (by
                simp only [List.length_append, List.length_singleton]
                omega)]
              simp
          | phSeg ds =>
              have hg := hgood (Seg.phSeg ds) (by simp)
              simp only [goodSeg, Bool.and_eq_true, List.all_eq_true] at hg
              have hds : ds ≠ [] := by
                intro hc
                rw [hc] at hg
                simp at hg
              obtain ⟨g, rfl⟩ : ∃ g, f = g + 1 := ⟨f - 1, by omega⟩
              show compileTF (g + 1)
                ('{' :: ((ds ++ ['}']) ++ '/' :: tmplL (s2 :: rest2))) =
                RItem.group ds :: RItem.lit '/' :: patL (s2 :: rest2)
              rw [show ((ds ++ ['}']) ++ '/' :: tmplL (s2 :: rest2)) =
                  ds ++ '}' :: ('/' :: tmplL (s2 :: rest2)) from by simp]
              rw [compileTF_placeholder g ds _ hds hg.2]
              have hflen : ('{' :: ((ds ++ ['}']) ++ '/' :: tmplL (s2 :: rest2))).length
                  < g + 1 := hf
              simp only [List.length_cons, List.length_append,
                List.length_singleton] at hflen
              obtain ⟨g', rfl⟩ : ∃ g', g = g' + 1 := ⟨g - 1, by omega⟩
              rw [compileTF_cons_other g' '/' _ (by decide)]
              rw [if_neg (by decide : ¬ ('/' : Char) = '.')]
              rw [ih (by simp) hgood2 g' (by omega)]

theorem filterMap_group_map_lit (l : List Char) :
    (l.map RItem.lit).filterMap (fun it =>
      match it with
      | RItem.group ds => some ds
      | _ => none) = [] := by
  induction l with
  | nil => rfl
  | cons c t ih => simp

theorem filterMap_group_patL :
    ∀ segs : List Seg, (patL segs).filterMap (fun it =>
      match it with
      | RItem.group ds => some ds
      | _ => none) = occL segs := by
  intro segs
  induction segs with
  | nil => rfl
  | cons s rest ih =>
      cases rest with
      | nil =>
          cases s with
          | strSeg l =>
              show (l.map RItem.lit).filterMap _ = []
              exact filterMap_group_map_lit l
          | phSeg ds => rfl
      | cons s2 rest2 =>
          rw [show patL (s :: s2 :: rest2) =
              segPat s ++ RItem.lit '/' :: patL (s2 :: rest2) from rfl]
          rw [List.filterMap_append]
          rw [show List.filterMap (fun it =>
                match it with
                | RItem.group ds => some ds
                | _ => none) (RItem.lit '/' :: patL (s2 :: rest2)) =
              List.filterMap (fun it =>
                match it with
                | RItem.group ds => some ds
                | _ => none) (patL (s2 :: rest2)) from rfl]
          rw [ih]
          cases s with
          | strSeg l =>
              rw [show segPat (Seg.strSeg l) = l.map RItem.lit from rfl]
              rw [filterMap_group_map_lit l]
              rfl
          | phSeg ds => rfl

/-! #### Identity of the path transformations on canonical data. -/

theorem intercalate_single {α : Type} (sep a : List α) :
    List.intercalate sep [a] = a := by
  simp [List.intercalate]

theorem intercalate_cons2 {α : Type} (sep a b : List α) (t : List (List α)) :
    List.intercalate sep (a :: b :: t) = a ++ sep ++ List.intercalate sep (b :: t) := by
  simp [List.intercalate, List.intersperse]

theorem tmplL_intercalate :
    ∀ segs : List Seg, segs ≠ [] →
      tmplL segs = List.intercalate ['/'] (segs.map segTmpl) := by
  intro segs
  induction segs with
  | nil => intro h; exact absurd rfl h
  | cons s rest ih =>
      intro _
      cases rest with
      | nil =>
          show segTmpl s = List.intercalate ['/'] [segTmpl s]
          rw [intercalate_single]
      | cons s2 rest2 =>
          show segTmpl s ++ '/' :: tmplL (s2 :: rest2) =
            List.intercalate ['/'] (segTmpl s :: segTmpl s2 :: (rest2.map segTmpl))
          rw [intercalate_cons2]
          rw [show (segTmpl s2 :: (rest2.map segTmpl)) = (s2 :: rest2).map segTmpl from rfl]
          rw [← ih (by simp)]
          simp

theorem strL_intercalate (key : List String) :
    ∀ segs : List Seg, segs ≠ [] →
      strL key segs = List.intercalate ['/'] (segs.map (segVal key)) := by
  intro segs
  induction segs with
  | nil => intro h; exact absurd rfl h
  | cons s rest ih =>
      intro _
      cases rest with
      | nil =>
          show segVal key s = List.intercalate ['/'] [segVal key s]
          rw [intercalate_single]
      | cons s2 rest2 =>
          show segVal key s ++ '/' :: strL key (s2 :: rest2) =
            List.intercalate ['/']
              (segVal key s :: segVal key s2 :: (rest2.map (segVal key)))
          rw [intercalate_cons2]
          rw [show (segVal key s2 :: (rest2.map (segVal key))) =
              (s2 :: rest2).map (segVal key) from rfl]
          rw [← ih (by simp)]
          simp

theorem splitChar_append_sep (sep : Char) :
    ∀ (v t : List Char), sep ∉ v →
      splitChar sep (v ++ sep :: t) = v :: splitChar sep t := by
  intro v
  induction v with
  | nil =>
      intro t _
      rw [List.nil_append, splitChar_cons, if_pos rfl]
  | cons c v' ih =>
      intro t h
      have hc : c ≠ sep := fun hc => h (by simp [hc])
      show splitChar sep (c :: (v' ++ sep :: t)) = (c :: v') :: splitChar sep t
      rw [splitChar_cons, if_neg hc, ih t (fun hm => h (by simp [hm]))]

theorem splitChar_no_sep (sep : Char) : ∀ v, sep ∉ v → splitChar sep v = [v] := by
  intro v
  induction v with
  | nil => intro _; rfl
  | cons c v' ih =>
      intro h
      have hc : c ≠ sep := fun hc => h (by simp [hc])
      rw [splitChar_cons, if_neg hc, ih (fun hm => h (by simp [hm]))]

theorem splitChar_parts :
    ∀ vs : List (List Char), vs ≠ [] → (∀ v ∈ vs, '/' ∉ v) →
      splitChar '/' (List.intercalate ['/'] vs) = vs := by
  intro vs
  induction vs with
  | nil => intro h; exact absurd rfl h
  | cons v rest ih =>
      intro _ hv
      cases rest with
      | nil =>
          rw [intercalate_single]
          exact splitChar_no_sep '/' v (hv v (by simp))
      | cons v2 rest2 =>
          rw [intercalate_cons2]
          rw [show (v ++ ['/']) ++ List.intercalate ['/'] (v2 :: rest2) =
              v ++ '/' :: List.intercalate ['/'] (v2 :: rest2) from by simp]
          rw [splitChar_append_sep '/' v _ (hv v (by simp))]
          rw [ih (by simp) (fun x hx => hv x (by simp [hx]))]

theorem normSlashes_of_head (c : Char) (t : List Char) (hc : c ≠ '/') :
    normSlashes (c :: t) = 0 := by
  unfold normSlashes
  rw [if_neg, if_neg]
  · intro h
    have : c = '/' := by
      have := congrArg (fun l => l.head?) h
      simpa using this
    exact hc this
  · intro h
    have hcc : (c :: t).take 2 = c :: t.take 1 := rfl
    rw [hcc] at h
    have : c = '/' := by
      have := congrArg (fun l => l.head?) h.1
      simpa using this
    exact hc this

theorem foldl_normFold :
    ∀ (vs : List (List Char)) (acc : List (List Char)),
      (∀ v ∈ vs, v ≠ [] ∧ v ≠ ['.'] ∧ v ≠ ['.', '.']) →
      vs.foldl (normFold 0) acc = vs.reverse ++ acc := by
  intro vs
  induction vs with
  | nil => intro acc _; simp
  | cons v rest ih =>
      intro acc hv
      obtain ⟨h1, h2, h3⟩ := hv v (by simp)
      show rest.foldl (normFold 0) (normFold 0 acc v) = _
      have hstep : normFold 0 acc v = v :: acc := by
        unfold normFold
        rw [if_neg (by simp [h1, h2]), if_pos (Or.inl h3)]
      rw [hstep, ih (v :: acc) (fun x hx => hv x (by simp [hx]))]
      simp

theorem normpathL_expand (p : List Char) (hp : p ≠ []) :
    normpathL p =
      (if List.replicate (normSlashes p) '/' ++
          List.intercalate ['/']
            (((splitChar '/' p).foldl (normFold (normSlashes p)) []).reverse) = []
       then ['.']
       else List.replicate (normSlashes p) '/' ++
          List.intercalate ['/']
            (((splitChar '/' p).foldl (normFold (normSlashes p)) []).reverse)) := by
  unfold normpathL
  rw [if_neg hp]

theorem head?_append_ne_nil {α : Type} (x y : List α) (h : x ≠ []) :
    (x ++ y).head? = x.head? := by
  cases x with
  | nil => exact absurd rfl h
  | cons a t => rfl

theorem mem_of_reverse_head? {α : Type} (l : List α) (c : α)
    (h : l.reverse.head? = some c) : c ∈ l := by
  cases hr : l.reverse with
  | nil => rw [hr] at h; cases h
  | cons x t =>
      rw [hr] at h
      have hx : c = x := by
        injection h with h'
        exact h'.symm
      subst hx
      have : c ∈ l.reverse := by rw [hr]; simp
      exact List.mem_reverse.mp this

theorem sStarts_mk_slash_false (v : List Char) (h1 : v ≠ []) (h2 : '/' ∉ v) :
    sStarts ⟨v⟩ "/" = false := by
  cases v with
  | nil => exact absurd rfl h1
  | cons c t =>
      have hc : c ≠ '/' := fun hc => h2 (by simp [hc])
      show (['/'].isPrefixOf (c :: t)) = false
      simp [List.isPrefixOf]
      intro h
      exact absurd h.symm hc

theorem sEnds_mk_slash_false (a : List Char)
    (h : ∀ c, a.reverse.head? = some c → c ≠ '/') : sEnds ⟨a⟩ "/" = false := by
  show (['/'].isSuffixOf a) = false
  rw [show List.isSuffixOf ['/'] a = List.isPrefixOf ['/'] a.reverse from rfl]
  cases hr : a.reverse with
  | nil => rfl
  | cons c t =>
      have hc := h c (by rw [hr]; rfl)
      show (['/'].isPrefixOf (c :: t)) = false
      simp [List.isPrefixOf]
      intro hcc
      exact absurd hcc.symm hc

/-- The `a ++ "/" ++ v` spine that repeated `posixpath.join` builds. -/
def sepJoin : List (List Char) → List Char
  | [] => []
  | v :: t => '/' :: (v ++ sepJoin t)

theorem sepJoin_intercalate :
    ∀ (t : List (List Char)) (v : List Char),
      v ++ sepJoin t = List.intercalate ['/'] (v :: t) := by
  intro t
  induction t with
  | nil =>
      intro v
      rw [intercalate_single]
      simp [sepJoin]
  | cons b t' ih =>
      intro v
      rw [show sepJoin (b :: t') = '/' :: (b ++ sepJoin t') from rfl]
      rw [intercalate_cons2, ← ih b]
      simp

theorem posixJoin_fold :
    ∀ (vs : List (List Char)) (a : List Char), a ≠ [] →
      (∀ c, a.reverse.head? = some c → c ≠ '/') →
      (∀ v ∈ vs, v ≠ [] ∧ '/' ∉ v) →
      (vs.map String.mk).foldl posixJoin2 ⟨a⟩ = ⟨a ++ sepJoin vs⟩ := by
  intro vs
  induction vs with
  | nil =>
      intro a _ _ _
      show (⟨a⟩ : String) = ⟨a ++ sepJoin []⟩
      rw [show sepJoin [] = [] from rfl, List.append_nil]
  | cons v t ih =>
      intro a ha hlast hv
      obtain ⟨hv1, hv2⟩ := hv v (by simp)
      have hjoin : posixJoin2 ⟨a⟩ ⟨v⟩ = ⟨a ++ '/' :: v⟩ := by
        unfold posixJoin2
        rw [sStarts_mk_slash_false v hv1 hv2]
        rw [if_neg (by simp)]
        rw [if_neg ?_]
        · show (⟨a⟩ : String) ++ "/" ++ ⟨v⟩ = ⟨a ++ '/' :: v⟩
          show (⟨(a ++ ['/']) ++ v⟩ : String) = ⟨a ++ '/' :: v⟩
          congr 1
          simp
        · rw [sEnds_mk_slash_false a hlast]
          simp
          intro hc
          have : a = [] := by
            have := congrArg String.data hc
            simpa using this
          exact ha this
      show ((t.map String.mk).foldl posixJoin2 (posixJoin2 ⟨a⟩ ⟨v⟩)) = _
      rw [hjoin]
      rw [ih (a ++ '/' :: v) (by simp) ?_ (fun x hx => hv x (by simp [hx]))]
      · congr 1
        rw [show sepJoin (v :: t) = '/' :: (v ++ sepJoin t) from rfl]
        simp
      · intro c hc
        rw [List.reverse_append] at hc
        rw [show ('/' :: v).reverse = v.reverse ++ ['/'] from by simp] at hc
        have hvr : v.reverse ≠ [] := by
          simpa using hv1
        rw [show (v.reverse ++ ['/']) ++ a.reverse = v.reverse ++ (['/'] ++ a.reverse)
          from by simp] at hc
        rw [head?_append_ne_nil _ _ hvr] at hc
        have hcm : c ∈ v.reverse := by
          cases hvv : v.reverse with
          | nil => exact absurd hvv hvr
          | cons x xt =>
              rw [hvv] at hc
              have hcx : c = x := by injection hc with h'; exact h'.symm
              rw [hcx]
              simp
        have hcv : c ∈ v := List.mem_reverse.mp hcm
        exact fun hcc => hv2 (hcc ▸ hcv)

theorem posixJoinSegs_parts (vs : List (List Char)) (hne : vs ≠ [])
    (hv : ∀ v ∈ vs, v ≠ [] ∧ '/' ∉ v) :
    posixJoinSegs (vs.map String.mk) = ⟨List.intercalate ['/'] vs⟩ := by
  cases vs with
  | nil => exact absurd rfl hne
  | cons v t =>
      obtain ⟨hv1, hv2⟩ := hv v (by simp)
      show (t.map String.mk).foldl posixJoin2 ⟨v⟩ = _
      rw [posixJoin_fold t v hv1
        (fun c hc => fun hcc => hv2 (hcc ▸ mem_of_reverse_head? v c hc))
        (fun x hx => hv x (by simp [hx]))]
      rw [sepJoin_intercalate t v]

theorem bsEscape_mk_id (l : List Char) (h : '\\' ∉ l) : bsEscape ⟨l⟩ = ⟨l⟩ := by
  show String.mk (l.foldr (fun c acc => if c = '\\' then '\\' :: '\\' :: acc else c :: acc) [])
    = ⟨l⟩
  congr 1
  induction l with
  | nil => rfl
  | cons c t ih =>
      show (if c = '\\' then '\\' :: '\\' :: _ else c :: _) = c :: t
      rw [if_neg (fun hc => h (by simp [hc]))]
      rw [ih (fun hm => h (by simp [hm]))]

/-! #### From the canonical-class hypotheses to the pipeline conditions. -/

theorem not_mem_of_containsSub (c : Char) :
    ∀ l : List Char, containsSub l [c] = false → c ∉ l := by
  intro l
  induction l with
  | nil => intro _; simp
  | cons x rest ih =>
      intro h
      have hsplit : ([c].isPrefixOf (x :: rest) || containsSub rest [c]) = false := h
      simp only [Bool.or_eq_false_iff] at hsplit
      obtain ⟨h1, h2⟩ := hsplit
      have hx : c ≠ x := by
        intro hcx
        subst hcx
        simp [List.isPrefixOf] at h1
      simp only [List.mem_cons, not_or]
      exact ⟨hx, ih h2⟩

/-- Unpacking `goodComp`: the character-level facts about a canonical
key component. -/
theorem goodComp_spec (k : String) (h : goodComp k = true) :
    k.data ≠ [] ∧ '/' ∉ k.data ∧ '\\' ∉ k.data ∧ '\n' ∉ k.data ∧
      k.data ≠ ['.'] ∧ k.data ≠ ['.', '.'] := by
  unfold goodComp at h
  simp only [Bool.and_eq_true, Bool.not_eq_true', decide_eq_false_iff_not] at h
  obtain ⟨⟨⟨⟨⟨h1, h2⟩, h3⟩, h4⟩, h5⟩, h6⟩ := h
  refine ⟨?_, ?_, ?_, ?_, ?_, ?_⟩
  · intro hd
    exact h1 (String.ext hd)
  · exact not_mem_of_containsSub '/' k.data h2
  · exact not_mem_of_containsSub '\\' k.data h3
  · intro hm
    have h2' : k.data.elem '\n' = true := List.elem_iff.mpr hm
    rw [show k.data.contains '\n' = k.data.elem '\n' from rfl, h2'] at h4
    cases h4
  · intro hd
    exact h5 (String.ext hd)
  · intro hd
    exact h6 (String.ext hd)

theorem getD_mem {α : Type} :
    ∀ (l : List α) (i : Nat) (d : α), i < l.length → l.getD i d ∈ l := by
  intro l
  induction l with
  | nil => intro i d h; exact absurd h (by simp)
  | cons a t ih =>
      intro i d h
      cases i with
      | zero => simp
      | succ i =>
          have hih := ih i d (by simpa using h)
          show (a :: t).getD (i + 1) d ∈ a :: t
          rw [show (a :: t).getD (i + 1) d = t.getD i d from rfl]
          exact List.mem_cons_of_mem a hih

theorem phSeg_mem_occL (segs : List Seg) (ds : List Char)
    (h : Seg.phSeg ds ∈ segs) : ds ∈ occL segs :=
  List.mem_filterMap.mpr ⟨Seg.phSeg ds, h, rfl⟩

theorem occL_idx_lt (segs : List Seg) (key : List String)
    (hperm : ((occL segs).map natOfDigits).Perm (List.range key.length)) :
    ∀ ds ∈ occL segs, natOfDigits ds < key.length := by
  intro ds hds
  have h1 : natOfDigits ds ∈ (occL segs).map natOfDigits :=
    List.mem_map_of_mem natOfDigits hds
  exact List.mem_range.mp (hperm.mem_iff.mp h1)

theorem segTmpl_ne_nil (s : Seg) (h : goodSeg s = true) : segTmpl s ≠ [] := by
  cases s with
  | strSeg l =>
      simp only [goodSeg, Bool.and_eq_true] at h
      intro he
      rw [show segTmpl (Seg.strSeg l) = l from rfl] at he
      rw [he] at h
      simp at h
  | phSeg ds => simp [segTmpl]

theorem segTmpl_no_slash (s : Seg) (h : goodSeg s = true) : '/' ∉ segTmpl s := by
  cases s with
  | strSeg l =>
      simp only [goodSeg, Bool.and_eq_true, List.all_eq_true] at h
      intro hm
      exact (plainChar_ne '/' (h.2 '/' hm)).2.2.2.1 rfl
  | phSeg ds =>
      simp only [goodSeg, Bool.and_eq_true, List.all_eq_true] at h
      intro hm
      rw [show segTmpl (Seg.phSeg ds) = '{' :: (ds ++ ['}']) from rfl] at hm
      simp only [List.mem_cons, List.mem_append, List.mem_singleton] at hm
      rcases hm with h1 | h2 | h3 | h4
      · cases h1
      · have := h.2 '/' h2
        cases this
      · exact absurd h3 (by decide)
      · cases h4

theorem segTmpl_no_bs (s : Seg) (h : goodSeg s = true) : '\\' ∉ segTmpl s := by
  cases s with
  | strSeg l =>
      simp only [goodSeg, Bool.and_eq_true, List.all_eq_true] at h
      intro hm
      exact (plainChar_ne '\\' (h.2 '\\' hm)).2.2.2.2.1 rfl
  | phSeg ds =>
      simp only [goodSeg, Bool.and_eq_true, List.all_eq_true] at h
      intro hm
      rw [show segTmpl (Seg.phSeg ds) = '{' :: (ds ++ ['}']) from rfl] at hm
      simp only [List.mem_cons, List.mem_append, List.mem_singleton] at hm
      rcases hm with h1 | h2 | h3 | h4
      · cases h1
      · have := h.2 '\\' h2
        cases this
      · exact absurd h3 (by decide)
      · cases h4

theorem tmplL_ne_nil :
    ∀ segs : List Seg, segs ≠ [] → (∀ s ∈ segs, goodSeg s = true) →
      tmplL segs ≠ [] := by
  intro segs hne hgood
  cases segs with
  | nil => exact absurd rfl hne
  | cons s rest =>
      cases rest with
      | nil =>
          show segTmpl s ≠ []
          exact segTmpl_ne_nil s (hgood s (by simp))
      | cons s2 rest2 =>
          show segTmpl s ++ '/' :: tmplL (s2 :: rest2) ≠ []
          simp

theorem tmplL_no_bs :
    ∀ segs : List Seg, (∀ s ∈ segs, goodSeg s = true) → '\\' ∉ tmplL segs := by
  intro segs
  induction segs with
  | nil => intro _; simp [tmplL]
  | cons s rest ih =>
      intro hgood
      cases rest with
      | nil => exact segTmpl_no_bs s (hgood s (by simp))
      | cons s2 rest2 =>
          show '\\' ∉ segTmpl s ++ '/' :: tmplL (s2 :: rest2)
          simp only [List.mem_append, List.mem_cons, not_or]
          refine ⟨segTmpl_no_bs s (hgood s (by simp)), by decide, ?_⟩
          exact ih (fun x hx => hgood x (by simp [hx]))

/-- Every rendered segment of a canonical template under a canonical key
is non-empty, slash-free, newline-free and not a normalization-special
component. -/
theorem segVal_conds (key : List String) (segs : List Seg)
    (hgood : ∀ s ∈ segs, goodSeg s = true)
    (hcomp : ∀ k ∈ key, goodComp k = true)
    (hidx : ∀ ds ∈ occL segs, natOfDigits ds < key.length) :
    ∀ s ∈ segs, segVal key s ≠ [] ∧ '/' ∉ segVal key s ∧ '\n' ∉ segVal key s ∧
      segVal key s ≠ ['.'] ∧ segVal key s ≠ ['.', '.'] := by
  intro s hs
  cases s with
  | strSeg l =>
      have hg := hgood _ hs
      simp only [goodSeg, Bool.and_eq_true, List.all_eq_true] at hg
      obtain ⟨hg1, hg2⟩ := hg
      have hnodot : '.' ∉ l := by
        intro hm
        exact (plainChar_ne '.' (hg2 '.' hm)).1 rfl
      refine ⟨?_, ?_, ?_, ?_, ?_⟩
      · intro h
        rw [show segVal key (Seg.strSeg l) = l from rfl] at h
        rw [h] at hg1
        simp at hg1
      · intro hm
        exact (plainChar_ne '/' (hg2 '/' hm)).2.2.2.1 rfl
      · intro hm
        exact (plainChar_ne '\n' (hg2 '\n' hm)).2.2.2.2.2 rfl
      · intro h
        rw [show segVal key (Seg.strSeg l) = l from rfl] at h
        exact hnodot (by rw [h]; simp)
      · intro h
        rw [show segVal key (Seg.strSeg l) = l from rfl] at h
        exact hnodot (by rw [h]; simp)
  | phSeg ds =>
      have hlt : natOfDigits ds < key.length := hidx ds (phSeg_mem_occL segs ds hs)
      have hmem : key.getD (natOfDigits ds) "" ∈ key := getD_mem key _ "" hlt
      have hc := goodComp_spec _ (hcomp _ hmem)
      exact ⟨hc.1, hc.2.1, hc.2.2.2.1, hc.2.2.2.2.1, hc.2.2.2.2.2⟩

/-- `key_length` of the canonical template (line 58) is the key's arity:
the distinct placeholder occurrences biject with `0 .. len(key)-1`. -/
theorem keyLengthOf_tmplL (segs : List Seg) (key : List String) (hne : segs ≠ [])
    (hgood : ∀ s ∈ segs, goodSeg s = true)
    (hnodup : (occL segs).Nodup)
    (hperm : ((occL segs).map natOfDigits).Perm (List.range key.length)) :
    keyLengthOf ⟨tmplL segs⟩ = key.length := by
  unfold keyLengthOf phOcc compileT
  rw [show (String.mk (tmplL segs)).data = tmplL segs from rfl]
  rw [compileTF_tmplL segs hne hgood _ (Nat.lt_succ_self _)]
  rw [filterMap_group_patL]
  rw [List.dedup_eq_self.mpr hnodup]
  have hlen := hperm.length_eq
  rw [List.length_map, List.length_range] at hlen
  exact hlen

/-- `normpath` is the identity on a `/`-joined list of ordinary
components. -/
theorem normpathL_intercalate (vs : List (List Char)) (hne : vs ≠ [])
    (hv : ∀ v ∈ vs, v ≠ [] ∧ '/' ∉ v ∧ v ≠ ['.'] ∧ v ≠ ['.', '.']) :
    normpathL (List.intercalate ['/'] vs) = List.intercalate ['/'] vs := by
  obtain ⟨v, t, rfl⟩ : ∃ v t, vs = v :: t := by
    cases vs with
    | nil => exact absurd rfl hne
    | cons v t => exact ⟨v, t, rfl⟩
  obtain ⟨hv1, hv2, _, _⟩ := hv v (by simp)
  obtain ⟨c, v', rfl⟩ : ∃ c v', v = c :: v' := by
    cases v with
    | nil => exact absurd rfl hv1
    | cons c v' => exact ⟨c, v', rfl⟩
  have hc : c ≠ '/' := fun h => hv2 (by simp [h])
  have hhead : ∃ r, List.intercalate ['/'] ((c :: v') :: t) = c :: r := by
    cases t with
    | nil => exact ⟨v', by rw [intercalate_single]⟩
    | cons b t' =>
        rw [intercalate_cons2]
        exact ⟨v' ++ '/' :: List.intercalate ['/'] (b :: t'), by simp⟩
  obtain ⟨r, hr⟩ := hhead
  have hpne : List.intercalate ['/'] ((c :: v') :: t) ≠ [] := by
    rw [hr]; simp
  have hini : normSlashes (List.intercalate ['/'] ((c :: v') :: t)) = 0 := by
    rw [hr]; exact normSlashes_of_head c r hc
  rw [normpathL_expand _ hpne, hini]
  rw [splitChar_parts _ (by simp) (fun x hx => (hv x hx).2.1)]
  rw [foldl_normFold _ []
    (fun x hx => ⟨(hv x hx).1, (hv x hx).2.2.1, (hv x hx).2.2.2⟩)]
  simp only [List.append_nil, List.reverse_reverse, List.replicate_zero,
    List.nil_append]
  rw [if_neg hpne]

/-- `normpath` fixes every canonical encoded path. -/
theorem normpathL_strL (key : List String) (segs : List Seg) (hne : segs ≠ [])
    (hseg : ∀ s ∈ segs, segVal key s ≠ [] ∧ '/' ∉ segVal key s ∧
      '\n' ∉ segVal key s ∧ segVal key s ≠ ['.'] ∧ segVal key s ≠ ['.', '.']) :
    normpathL (strL key segs) = strL key segs := by
  rw [strL_intercalate key segs hne]
  refine normpathL_intercalate (segs.map (segVal key)) ?_ ?_
  · intro h
    exact hne (List.map_eq_nil_iff.mp h)
  · intro v hv
    obtain ⟨s, hs, rfl⟩ := List.mem_map.mp hv
    obtain ⟨h1, h2, _, h4, h5⟩ := hseg s hs
    exact ⟨h1, h2, h4, h5⟩

theorem capsL_shape (key : List String) (segs : List Seg)
    (q : List Char × List Char) (h : q ∈ capsL key segs) :
    q.2 = (key.getD (natOfDigits q.1) "").data := by
  obtain ⟨s, _, hf⟩ := List.mem_filterMap.mp h
  cases s with
  | strSeg l => exact Option.noConfusion hf
  | phSeg ds =>
      injection hf with hq
      rw [← hq]

theorem mem_capsL_of_occL (key : List String) (segs : List Seg) (ds : List Char)
    (h : ds ∈ occL segs) :
    (ds, (key.getD (natOfDigits ds) "").data) ∈ capsL key segs := by
  obtain ⟨s, hs, hf⟩ := List.mem_filterMap.mp h
  cases s with
  | strSeg l => exact Option.noConfusion hf
  | phSeg ds2 =>
      injection hf with hds
      rw [← hds]
      exact List.mem_filterMap.mpr ⟨Seg.phSeg ds2, hs, rfl⟩

theorem capsL_idx_lt (key : List String) (segs : List Seg)
    (hidx : ∀ ds ∈ occL segs, natOfDigits ds < key.length) :
    ∀ q ∈ capsL key segs, natOfDigits q.1 < key.length := by
  intro q hq
  obtain ⟨s, hs, hf⟩ := List.mem_filterMap.mp hq
  cases s with
  | strSeg l => exact Option.noConfusion hf
  | phSeg ds =>
      injection hf with hds
      have : q.1 = ds := by rw [← hds]
      rw [this]
      exact hidx ds (phSeg_mem_occL segs ds hs)

theorem list_eq_of_getD {α : Type} (d : α) :
    ∀ (l1 l2 : List α), l1.length = l2.length →
      (∀ j, j < l1.length → l1.getD j d = l2.getD j d) → l1 = l2 := by
  intro l1
  induction l1 with
  | nil =>
      intro l2 hlen _
      cases l2 with
      | nil => rfl
      | cons b t2 => simp at hlen
  | cons a t ih =>
      intro l2 hlen hj
      cases l2 with
      | nil => simp at hlen
      | cons b t2 =>
          have hab : a = b := hj 0 (by simp)
          have ht : t = t2 :=
            ih t2 (by simpa using hlen) (fun j hjj => hj (j + 1) (by simpa using hjj))
          rw [hab, ht]

theorem getLast?_of_mem {α : Type} (l : List α) (a : α) (h : a ∈ l) :
    ∃ r ∈ l, l.getLast? = some r := by
  have hne : l ≠ [] := List.ne_nil_of_mem h
  exact ⟨l.getLast hne, List.getLast_mem hne, List.getLast?_eq_getLast l hne⟩

/-- When the placeholder indices cover `0 .. len(key)-1`, the assembly
loop writes every slot and recovers the key (each slot's last writer
captures exactly that component). -/
theorem writeCaps_capsL (key : List String) (segs : List Seg)
    (hcover : ∀ j, j < key.length → ∃ ds ∈ occL segs, natOfDigits ds = j) :
    writeCaps (capsL key segs) (List.replicate key.length none) =
      key.map (fun s => some s.data) := by
  apply list_eq_of_getD none
  · rw [writeCaps_length, List.length_replicate, List.length_map]
  · intro j hj
    have hjlen : j < key.length := by
      rw [writeCaps_length, List.length_replicate] at hj
      exact hj
    rw [writeCaps_getD _ _ j (by rw [List.length_replicate]; exact hjlen)]
    rw [getD_replicate_none]
    obtain ⟨ds, hds, hdsj⟩ := hcover j hjlen
    have hfil : (ds, (key.getD (natOfDigits ds) "").data) ∈
        (capsL key segs).filter (fun q => natOfDigits q.1 = j) := by
      rw [List.mem_filter]
      exact ⟨mem_capsL_of_occL key segs ds hds, by simp [hdsj]⟩
    obtain ⟨r, hrmem, hrlast⟩ := getLast?_of_mem _ _ hfil
    rw [hrlast]
    rw [List.mem_filter] at hrmem
    obtain ⟨hrcaps, hrj⟩ := hrmem
    have hrj' : natOfDigits r.1 = j := of_decide_eq_true hrj
    have hval : r.2 = (key.getD j "").data := by
      rw [capsL_shape key segs r hrcaps, hrj']
    rw [getD_map_of_lt _ key j "" none hjlen]
    show some r.2 = some ((key.getD j "").data)
    rw [hval]

/-- Re-wrapping the raw slots as strings gives back the key itself. -/
theorem map_optmap_data (key : List String) :
    (key.map (fun s => some s.data)).map (Option.map String.mk) = key.map some := by
  rw [List.map_map]
  induction key with
  | nil => rfl
  | cons k t ih =>
      show some k :: _ = some k :: _
      rw [show List.map (Option.map String.mk ∘ fun s => some s.data) t =
          List.map some t from ih]

/-- Key validation succeeds on a canonical key of the right arity. -/
theorem validateKey_canon (segs : List Seg) (key : List String)
    (hcomp : ∀ k ∈ key, goodComp k = true)
    (hkl : keyLengthOf ⟨tmplL segs⟩ = key.length) :
    validateKey (tmplCfg segs) key = .ok () := by
  have h1 : (key.any fun k => k = "") = false := by
    rw [List.any_eq_false]
    intro k hk
    have h0 : k.data ≠ [] := (goodComp_spec k (hcomp k hk)).1
    simp only [decide_eq_true_eq]
    intro he
    exact h0 (by rw [he])
  have h3 : ∀ x ∈ key, strContains x "/" = false ∧ strContains x "\\" = false := by
    intro k hk
    have hgc := hcomp k hk
    unfold goodComp at hgc
    simp only [Bool.and_eq_true, Bool.not_eq_true'] at hgc
    obtain ⟨⟨⟨⟨⟨_, hsl⟩, hbs⟩, _⟩, _⟩, _⟩ := hgc
    exact ⟨hsl, hbs⟩
  unfold validateKey baseValidateKey
  simp [tmplCfg, h1, hkl]
  exact h3

/-- Encoding a canonical key through a canonical template renders each
segment and joins with `/`, and all validation passes. -/
theorem convertKey_canon (key : List String) (segs : List Seg)
    (hne : segs ≠ [])
    (hgood : ∀ s ∈ segs, goodSeg s = true)
    (hcomp : ∀ k ∈ key, goodComp k = true)
    (hnodup : (occL segs).Nodup)
    (hperm : ((occL segs).map natOfDigits).Perm (List.range key.length)) :
    convertKeyToFilepath (tmplCfg segs) key = .ok ⟨strL key segs⟩ := by
  have hidx := occL_idx_lt segs key hperm
  have hkl := keyLengthOf_tmplL segs key hne hgood hnodup hperm
  have hval := validateKey_canon segs key hcomp hkl
  have htne : ¬ ((⟨tmplL segs⟩ : String) = "") := by
    intro h
    exact tmplL_ne_nil segs hne hgood (congrArg String.data h)
  have hfmt : pyFormat ⟨tmplL segs⟩ key = some (strL key segs) :=
    pyFormatF_tmplL key segs hne hgood
      (fun ds hds => hidx ds (phSeg_mem_occL segs ds hds)) _ (Nat.lt_succ_self _)
  have hnorm : normpathStr ⟨strL key segs⟩ = ⟨strL key segs⟩ := by
    show (⟨normpathL (strL key segs)⟩ : String) = _
    rw [normpathL_strL key segs hne (segVal_conds key segs hgood hcomp hidx)]
  simp only [tmplCfg] at hval
  unfold convertKeyToFilepath
  simp [tmplCfg, hval, htne, hfmt, hnorm]

/-- Decoding the canonical encoded path recovers the key exactly: the
prefix/suffix stages are inert, the platform transform of the template is
the identity, the greedy match captures each segment whole, and the
assembly loop fills every slot. -/
theorem convertFp_canon (key : List String) (segs : List Seg)
    (hne : segs ≠ [])
    (hgood : ∀ s ∈ segs, goodSeg s = true)
    (hcomp : ∀ k ∈ key, goodComp k = true)
    (hnodup : (occL segs).Nodup)
    (hperm : ((occL segs).map natOfDigits).Perm (List.range key.length)) :
    convertFilepathToKey (tmplCfg segs) ⟨strL key segs⟩ = .ok (some (key.map some)) := by
  have hidx := occL_idx_lt segs key hperm
  have hkl := keyLengthOf_tmplL segs key hne hgood hnodup hperm
  have hsegval := segVal_conds key segs hgood hcomp hidx
  have htne : ¬ ((⟨tmplL segs⟩ : String) = "") := by
    intro h
    exact tmplL_ne_nil segs hne hgood (congrArg String.data h)
  have hnorm : normpathStr ⟨strL key segs⟩ = ⟨strL key segs⟩ := by
    show (⟨normpathL (strL key segs)⟩ : String) = _
    rw [normpathL_strL key segs hne hsegval]
  have hmapne : segs.map segTmpl ≠ [] := fun h => hne (List.map_eq_nil_iff.mp h)
  have hnosl : ∀ v ∈ segs.map segTmpl, '/' ∉ v := by
    intro v hv
    obtain ⟨s, hs, rfl⟩ := List.mem_map.mp hv
    exact segTmpl_no_slash s (hgood s hs)
  have hsplit : splitSlash ⟨tmplL segs⟩ = (segs.map segTmpl).map String.mk := by
    show (splitChar '/' (tmplL segs)).map String.mk = _
    rw [tmplL_intercalate segs hne, splitChar_parts _ hmapne hnosl]
  have hjoin : posixJoinSegs ((segs.map segTmpl).map String.mk) = ⟨tmplL segs⟩ := by
    rw [posixJoinSegs_parts (segs.map segTmpl) hmapne
      (fun v hv => by
        obtain ⟨s, hs, rfl⟩ := List.mem_map.mp hv
        exact ⟨segTmpl_ne_nil s (hgood s hs), segTmpl_no_slash s (hgood s hs)⟩)]
    rw [← tmplL_intercalate segs hne]
  have ht2 : bsEscape (posixJoinSegs (splitSlash ⟨tmplL segs⟩)) = ⟨tmplL segs⟩ := by
    rw [hsplit, hjoin]
    exact bsEscape_mk_id _ (tmplL_no_bs segs hgood)
  have hm : rmatch (compileT ⟨tmplL segs⟩) (strL key segs) = some (capsL key segs) := by
    rw [show compileT ⟨tmplL segs⟩ = compileTF ((tmplL segs).length + 1) (tmplL segs)
      from rfl]
    rw [compileTF_tmplL segs hne hgood _ (Nat.lt_succ_self _)]
    exact rmatch_patL key segs hne
      (fun s hs => ⟨(hsegval s hs).2.1, (hsegval s hs).2.2.1⟩)
  have hasm : assembleKey (keyLengthOf ⟨tmplL segs⟩) (capsL key segs) =
      .ok (writeCaps (capsL key segs) (List.replicate key.length none)) := by
    rw [hkl]
    show (capsL key segs).foldlM (setSlot key.length) (List.replicate key.length none) = _
    exact assembleKey_ok key.length (capsL key segs) _ (capsL_idx_lt key segs hidx)
  have hcover : ∀ j, j < key.length → ∃ ds ∈ occL segs, natOfDigits ds = j := by
    intro j hj
    have hjm : j ∈ (occL segs).map natOfDigits :=
      hperm.mem_iff.mpr (List.mem_range.mpr hj)
    obtain ⟨ds, hds, hdsj⟩ := List.mem_map.mp hjm
    exact ⟨ds, hds, hdsj⟩
  have hwc := writeCaps_capsL key segs hcover
  unfold convertFilepathToKey
  simp [tmplCfg, hnorm, htne, ht2, hm, hasm, hwc, map_optmap_data]

/-- C1 (amended): for a backend in the default configuration
(`platform_specific_separator = True`, no prefix/suffix, default
forbidden substrings) whose template is canonical — `/`-separated
segments, each either a plain literal or a single placeholder `{i}`, with
pairwise-distinct placeholder occurrences whose indices enumerate
`0 .. len(key)-1` — encoding then decoding a canonical key (components
non-empty, free of `/`, `\`, newline, and not `.` or `..`) is lossless:
`_convert_key_to_filepath` renders each segment joined by `/`, and
`_convert_filepath_to_key` recovers exactly the original key. -/
theorem claim_C1_amended (key : List String) (segs : List Seg)
    (hne : segs ≠ [])
    (hgood : ∀ s ∈ segs, goodSeg s = true)
    (hcomp : ∀ k ∈ key, goodComp k = true)
    (hnodup : (occL segs).Nodup)
    (hperm : ((occL segs).map natOfDigits).Perm (List.range key.length)) :
    convertKeyToFilepath (tmplCfg segs) key = .ok ⟨strL key segs⟩ ∧
    convertFilepathToKey (tmplCfg segs) ⟨strL key segs⟩ = .ok (some (key.map some)) :=
  ⟨convertKey_canon key segs hne hgood hcomp hnodup hperm,
   convertFp_canon key segs hne hgood hcomp hnodup hperm⟩

/-- Witness for the amended C1: template `"a/{0}/{1}/b-txt"` (segments
`a`, `{0}`, `{1}`, `b-txt`) with key `("x", "y")` encodes to
`"a/x/y/b-txt"` and decodes back to `("x", "y")`. -/
theorem claim_C1_amended_witness :
    convertKeyToFilepath
        (tmplCfg [Seg.strSeg ['a'], Seg.phSeg ['0'], Seg.phSeg ['1'],
          Seg.strSeg ['b', '-', 't', 'x', 't']]) ["x", "y"] =
      .ok ⟨strL ["x", "y"] [Seg.strSeg ['a'], Seg.phSeg ['0'], Seg.phSeg ['1'],
          Seg.strSeg ['b', '-', 't', 'x', 't']]⟩ ∧
    convertFilepathToKey
        (tmplCfg [Seg.strSeg ['a'], Seg.phSeg ['0'], Seg.phSeg ['1'],
          Seg.strSeg ['b', '-', 't', 'x', 't']])
        ⟨strL ["x", "y"] [Seg.strSeg ['a'], Seg.phSeg ['0'], Seg.phSeg ['1'],
          Seg.strSeg ['b', '-', 't', 'x', 't']]⟩ =
      .ok (some (["x", "y"].map some)) :=
  claim_C1_amended ["x", "y"]
    [Seg.strSeg ['a'], Seg.phSeg ['0'], Seg.phSeg ['1'],
      Seg.strSeg ['b', '-', 't', 'x', 't']]
    (by decide) (by decide) (by decide) (by decide) (by decide)

end TupleStoreBackend
